import Mathlib

/-!
# Verification of `findLargestConnectedComponent.cpp`

A shallow embedding of the single C++ source file of the repository
`GrayscaleConnectedComponent`, together with proofs about it.

The C++ program consists of
* class `Image` (lines 14-68): a 2D grid of `int` pixels stored row-major in a
  flat `std::vector<int>`, with bounds-checked access `At(row, col)`;
* `FindLargestConnected` (lines 78-106): a row-major scan that seeds a
  depth-first flood fill at every not-yet-visited cell, keeping a per-value
  running maximum in `int countForPixel[256]`, and finally returns the maximum
  over all 256 slots;
* `CheckNextPixel` (lines 111-133): the recursive flood fill that marks
  visited cells with the sentinel `-1`.

Modeling conventions:
* C++ `int` values are embedded as `Int` (overflow plays no role in the
  claims, which constrain pixel values to `[0,255]` and sizes to realistic
  ranges).
* C++ exceptions are embedded as the `Except Err` monad.  `Err.fuelExhausted`
  is a modeling device: the C++ recursion of `CheckNextPixel` is unbounded
  (and actually divergent for `currentPixel = -1`), so the embedding carries
  an explicit fuel counter which is decremented on every recursive call.  All
  top-level results are proven for a concretely chosen sufficient fuel.
* `std::vector<int>` is embedded as `List Int`; `size_t` casts are embedded as
  reduction modulo `2^64`; an allocation request exceeding the vector's
  maximal size is embedded as `Err.lengthError` (C++ `std::length_error`).
* the fixed-size array `int countForPixel[256]` is embedded as a total
  function `Int → Int`; C++ leaves indexing it outside `[0,256)` undefined,
  and the theorems below correspondingly restrict pixel values.
-/

/-! ## Definitions: the embedded program, its data model, and the
reference notions used by the specifications -/

/-- The kinds of failure observable from the embedded program.
`invalidArgument` is `std::invalid_argument`, `outOfRange` is
`std::out_of_range`, `lengthError` models the `std::length_error` /
`std::bad_alloc` family thrown by `std::vector` for non-representable sizes,
and `fuelExhausted` is the artificial out-of-fuel marker of the embedding. -/
inductive Err where
  | invalidArgument
  | outOfRange
  | lengthError
  | fuelExhausted
deriving DecidableEq, Repr

/-- The `Image` class (lines 14-68): row count `rows_`, column count `cols_`,
and the flat row-major pixel buffer `data_`. -/
structure Image where
  rows_ : Int
  cols_ : Int
  data_ : List Int
deriving DecidableEq, Repr

/-- The raw buffer read `data_[row * cols_ + col]` (line 48 / line 61),
total with default `0`; it is only ever exercised behind the bounds check of
`Image.at` or on indices proven in range. -/
def Image.atv (img : Image) (row col : Int) : Int :=
  img.data_.getD (row * img.cols_ + col).toNat 0

/-- `Image::At(int, int)` (lines 43-49, and the identical `const` overload at
lines 57-62) used as a read: bounds check, then the flat-buffer access. -/
def Image.at (img : Image) (row col : Int) : Except Err Int :=
  if row < 0 ∨ row ≥ img.rows_ ∨ col < 0 ∨ col ≥ img.cols_ then .error .outOfRange
  else .ok (img.atv row col)

/-- `Image::At(int, int)` used as the target of an assignment
(`img.At(r, c) = v`): the same bounds check, then the buffer update.  A thrown
`outOfRange` happens before any write, so the error case produces no new
image and the caller's image is unchanged. -/
def Image.atSet (img : Image) (row col value : Int) : Except Err Image :=
  if row < 0 ∨ row ≥ img.rows_ ∨ col < 0 ∨ col ≥ img.cols_ then .error .outOfRange
  else .ok { img with data_ := img.data_.set (row * img.cols_ + col).toNat value }

/-- The maximal element count of a `std::vector<int>` on the reference LP64
platform (`PTRDIFF_MAX / sizeof(int)`). The exact cutoff is irrelevant to the
claims; it only needs to be astronomically large and below `2^64`. -/
def maxVectorSize : Int := 2 ^ 61

/-- `Image::Image(int rows, int cols)` (line 21): stores the two dimensions
unchecked and value-initializes `rows * cols` cells to `0`.  The size
expression `rows * cols` is converted to `size_t` (reduction modulo `2^64`,
so a negative product becomes enormous); an allocation beyond `maxVectorSize`
fails with the vector's length error, never with `invalid_argument`. -/
def Image.mkDims (rows cols : Int) : Except Err Image :=
  let n : Int := (rows * cols) % (2 ^ 64 : Int)
  if n ≤ maxVectorSize then .ok ⟨rows, cols, List.replicate n.toNat 0⟩
  else .error .lengthError

/-- `Image::Image(int rows, int cols, const std::vector<int>&)`
(lines 29-35): stores dimensions and data, then throws
`std::invalid_argument` when `data_.size() != static_cast<size_t>(rows_ * cols_)`. -/
def Image.mkData (rows cols : Int) (initial_data : List Int) : Except Err Image :=
  if (initial_data.length : Int) ≠ (rows * cols) % (2 ^ 64 : Int) then
    .error .invalidArgument
  else .ok ⟨rows, cols, initial_data⟩

/-- The four axis-aligned neighbor offsets, i.e. the two arrays
`dr[] = {-1, 1, 0, 0}` and `dc[] = {0, 0, -1, 1}` (lines 115-116) paired up. -/
def offsets : List (Int × Int) := [(-1, 0), (1, 0), (0, -1), (0, 1)]

/-- The neighbor loop of `CheckNextPixel` (lines 118-131), parameterized by
the list of offsets still to be processed.  `fuel` is decremented on every
recursive call; the C++ original has no fuel and simply recurses. For each
remaining offset: if the neighbor is within bounds (line 123) and its pixel
equals `currentPixel` (line 124), it is marked `-1` (line 125), the count is
incremented (line 126) and the search recurses from the neighbor over all
four offsets (line 128) before the loop resumes with the remaining offsets. -/
def CheckNbr : Nat → Int → Int → Image → Int → Int → Int → Int → List (Int × Int) →
    Except Err (Int × Image)
  | _, _, _, img, _, _, _, count, [] => .ok (count, img)
  | 0, _, _, _, _, _, _, _, _ :: _ => .error .fuelExhausted
  | fuel + 1, rows, cols, img, curRow, curCol, currentPixel, count, d :: rest =>
    let nextRow := curRow + d.1
    let nextCol := curCol + d.2
    if 0 ≤ nextRow ∧ nextRow < rows ∧ 0 ≤ nextCol ∧ nextCol < cols then
      match img.at nextRow nextCol with
      | .error e => .error e
      | .ok v =>
        if v = currentPixel then
          match img.atSet nextRow nextCol (-1) with
          | .error e => .error e
          | .ok img1 =>
            match CheckNbr fuel rows cols img1 nextRow nextCol currentPixel (count + 1) offsets with
            | .error e => .error e
            | .ok s => CheckNbr fuel rows cols s.2 curRow curCol currentPixel s.1 rest
        else CheckNbr fuel rows cols img curRow curCol currentPixel count rest
    else CheckNbr fuel rows cols img curRow curCol currentPixel count rest

/-- `CheckNextPixel` (lines 111-133): one full pass over the four neighbors
of `(curRow, curCol)`, returning the updated count and image. -/
def CheckNextPixel (fuel : Nat) (rows cols : Int) (img : Image)
    (curRow curCol currentPixel currentCount : Int) : Except Err (Int × Image) :=
  CheckNbr fuel rows cols img curRow curCol currentPixel currentCount offsets

/-- The fuel supplied to each seeded traversal: provably sufficient for any
grid with `rows * cols` cells (every recursive call either consumes one of
the at most `rows * cols` markable cells or one of at most four loop steps
per marked cell). -/
def scanFuel (rows cols : Int) : Nat := 5 * (rows * cols).toNat + 5

/-- The body of the double scan loop of `FindLargestConnected`
(lines 83-95), acting on the state `s = (countForPixel, img)`: read the
current pixel (line 83), skip if already visited (line 84), otherwise mark it
(line 88), run the traversal with initial count `1` (lines 87, 91), and raise
the running maximum `countForPixel[currentPixel]` if exceeded (lines 93-95). -/
def scanCell (rows cols : Int) (s : (Int → Int) × Image) (row col : Int) :
    Except Err ((Int → Int) × Image) :=
  match s.2.at row col with
  | .error e => .error e
  | .ok currentPixel =>
    if currentPixel = -1 then .ok s
    else
      match s.2.atSet row col (-1) with
      | .error e => .error e
      | .ok img1 =>
        match CheckNextPixel (scanFuel rows cols) rows cols img1 row col currentPixel 1 with
        | .error e => .error e
        | .ok r =>
          let countForPixel := if r.1 > s.1 currentPixel then
            fun i => if i = currentPixel then r.1 else s.1 i
          else s.1
          .ok (countForPixel, r.2)

/-- The double loop of `FindLargestConnected` (lines 81-97): all cells in
row-major order, starting from the all-zero `countForPixel` (line 79). -/
def scanGrid (rows cols : Int) (img : Image) : Except Err ((Int → Int) × Image) :=
  List.foldlM
    (fun s (row : ℕ) => List.foldlM
      (fun s2 (col : ℕ) => scanCell rows cols s2 (row : Int) (col : Int))
      s (List.range cols.toNat))
    (fun _ => (0 : Int), img) (List.range rows.toNat)

/-- `FindLargestConnected` (lines 78-106): the scan followed by the final
reduction `maxCount = max over i in [0,256) of countForPixel[i]`
(lines 99-105). -/
def FindLargestConnected (rows cols : Int) (img : Image) : Except Err Int :=
  match scanGrid rows cols img with
  | .error e => .error e
  | .ok s =>
    .ok (List.foldl
      (fun maxCount (i : ℕ) => if s.1 (i : Int) > maxCount then s.1 (i : Int) else maxCount)
      0 (List.range 256))

/-- `(rows, cols)` are the dimensions the image was built with: its fields
agree with them, they are nonnegative, and the backing buffer has exactly
`rows * cols` cells (the constructor invariant of `Image`). -/
def Valid (img : Image) (rows cols : Int) : Prop :=
  img.rows_ = rows ∧ img.cols_ = cols ∧ 0 ≤ rows ∧ 0 ≤ cols ∧
    img.data_.length = (rows * cols).toNat

instance (img : Image) (rows cols : Int) : Decidable (Valid img rows cols) :=
  inferInstanceAs (Decidable (_ ∧ _ ∧ _ ∧ _ ∧ _))

/-- A coordinate pair lies within the grid: `row ∈ [0, rows)` and
`col ∈ [0, cols)`. -/
def inB (rows cols : Int) (p : Int × Int) : Prop :=
  0 ≤ p.1 ∧ p.1 < rows ∧ 0 ≤ p.2 ∧ p.2 < cols

instance (rows cols : Int) (p : Int × Int) : Decidable (inB rows cols p) :=
  inferInstanceAs (Decidable (_ ∧ _ ∧ _ ∧ _))

/-- 4-adjacency: `b` is obtained from `a` by one of the four axis-aligned
unit offsets. -/
def adj (a b : Int × Int) : Prop := ∃ d ∈ offsets, b = (a.1 + d.1, a.2 + d.2)

/-- Reference definition (from the spec, not from the code): one step of
equal-value 4-connectivity inside the grid. -/
def eqStep (rows cols : Int) (g : Image) (a b : Int × Int) : Prop :=
  adj a b ∧ inB rows cols a ∧ inB rows cols b ∧ g.atv a.1 a.2 = g.atv b.1 b.2

/-- Reference definition (from the spec): the 4-connected region of cells of
the grid `g` sharing the value of the cell `p` and connected to `p`, as the
reflexive-transitive closure of `eqStep`. -/
def region (rows cols : Int) (g : Image) (p : Int × Int) : Set (Int × Int) :=
  setOf (Relation.ReflTransGen (eqStep rows cols g) p)

/-- The finite set of all in-bounds coordinates of an `rows × cols` grid. -/
def boxF (rows cols : Int) : Finset (Int × Int) :=
  Finset.Icc 0 (rows - 1) ×ˢ Finset.Icc 0 (cols - 1)

/-- Reference definition (from the spec, §4.2): the size of the largest
4-connected region of cells equal to `v`, i.e. the maximum over all cells
carrying the value `v` of the size of the region containing that cell
(`0` when no cell carries `v`). -/
noncomputable def largestRegion (rows cols : Int) (g : Image) (v : Int) : Nat :=
  ((boxF rows cols).filter (fun p => g.atv p.1 p.2 = v)).sup
    (fun p => (region rows cols g p).ncard)

/-- Reference definition (from the spec, §4.2 step 5): the expected result,
`max over all v in [0,256) of (size of the largest 4-connected region of
cells equal to v)`. -/
noncomputable def refMax (rows cols : Int) (g : Image) : Int :=
  (((Finset.range 256).sup (fun v => largestRegion rows cols g (v : Int))) : Nat)

/-- `st` restricted to steps whose target lies outside `V`. -/
def stepAvoid {α : Type} (st : α → α → Prop) (V : Set α) (a b : α) : Prop :=
  st a b ∧ b ∉ V

/-- A set `W` is `st`-closed when no `st` step leaves it. -/
def StClosed {α : Type} (st : α → α → Prop) (W : Set α) : Prop :=
  ∀ w ∈ W, ∀ z, st w z → z ∈ W

/-- One step of the traversal as the code performs it: `b` is one of the four
neighbors of `a`, lies within bounds, and currently holds the pixel value
`cp` being traced. -/
def gstep (rows cols : Int) (g : Image) (cp : Int) (a b : Int × Int) : Prop :=
  adj a b ∧ inB rows cols b ∧ g.atv b.1 b.2 = cp

/-- The in-bounds cells currently holding the value `cp`. -/
def cpCells (rows cols : Int) (g : Image) (cp : Int) : Set (Int × Int) :=
  {q | inB rows cols q ∧ g.atv q.1 q.2 = cp}

/-- The set of cells that the remaining loop iterations (offsets `ds`) of a
traversal sitting at `p` will mark: those reachable by first stepping to a
neighbor `p + d` with `d` among the remaining offsets and then walking
`gstep` freely. -/
def reachLoop (rows cols : Int) (g : Image) (cp : Int) (p : Int × Int)
    (ds : List (Int × Int)) : Set (Int × Int) :=
  {q | ∃ d ∈ ds, inB rows cols (p.1 + d.1, p.2 + d.2) ∧
    g.atv (p.1 + d.1) (p.2 + d.2) = cp ∧
    Relation.ReflTransGen (gstep rows cols g cp) (p.1 + d.1, p.2 + d.2) q}

/-- `g2` is `g` with exactly the cells of `S` overwritten by the sentinel
`-1` (on the in-bounds part of the grid). -/
def MarksOf (rows cols : Int) (g g2 : Image) (S : Set (Int × Int)) : Prop :=
  ∀ q : Int × Int, inB rows cols q →
    (q ∈ S → g2.atv q.1 q.2 = -1) ∧ (q ∉ S → g2.atv q.1 q.2 = g.atv q.1 q.2)

/-- What the recursive call seeded at the freshly marked cell `b` marks:
cells reachable from `b` by walks through `cp`-cells that never return
to `b`. -/
def reachSeed (rows cols : Int) (g : Image) (cp : Int) (b : Int × Int) :
    Set (Int × Int) :=
  setOf (Relation.TransGen (stepAvoid (gstep rows cols g cp) (Set.singleton b)) b)

/-- The freshly marked cell together with everything its recursive call
marks. -/
def seedBlock (rows cols : Int) (g : Image) (cp : Int) (b : Int × Int) :
    Set (Int × Int) :=
  insert b (reachSeed rows cols g cp b)

/-- `reachLoop` computed on the grid whose `W`-cells are already marked,
expressed over the original grid: first steps must leave `W` and the walks
must avoid `W`. -/
def reachLoopAvoid (rows cols : Int) (g : Image) (cp : Int) (p : Int × Int)
    (ds : List (Int × Int)) (W : Set (Int × Int)) : Set (Int × Int) :=
  {q | ∃ d ∈ ds, inB rows cols (p.1 + d.1, p.2 + d.2) ∧
    (p.1 + d.1, p.2 + d.2) ∉ W ∧ g.atv (p.1 + d.1) (p.2 + d.2) = cp ∧
    Relation.ReflTransGen (stepAvoid (gstep rows cols g cp) W)
      (p.1 + d.1, p.2 + d.2) q}

/-- The cells already consumed by the scan after processing the seeds in
`P`: every cell of a region whose seed was scanned unvisited. -/
def scanned (rows cols : Int) (g0 : Image) (P : Finset (Int × Int)) :
    Set (Int × Int) :=
  {r | ∃ q ∈ P, inB rows cols q ∧ g0.atv q.1 q.2 ≠ -1 ∧
    r ∈ region rows cols g0 q}

/-- The running per-value maxima `countForPixel` agree with the true largest
region sizes among the seeds processed so far (for every value other than the
sentinel). -/
def countsInv (rows cols : Int) (g0 : Image) (P : Finset (Int × Int))
    (counts : Int → Int) : Prop :=
  ∀ v : Int, v ≠ -1 →
    counts v = (((P.filter (fun q => g0.atv q.1 q.2 = v)).sup
      (fun q => (region rows cols g0 q).ncard) : Nat) : Int)

/-- The full invariant of the scan after processing the seeds in `P`. -/
def ScanInv (rows cols : Int) (g0 : Image) (P : Finset (Int × Int))
    (s : (Int → Int) × Image) : Prop :=
  Valid s.2 rows cols ∧
    MarksOf rows cols g0 s.2 (scanned rows cols g0 P) ∧
    countsInv rows cols g0 P s.1

/-- The cells of the grid in the row-major order of the double loop. -/
def cellsList (rows cols : Int) : List (Int × Int) :=
  (List.range rows.toNat).flatMap
    (fun r : ℕ => (List.range cols.toNat).map (fun c : ℕ => ((r : Int), (c : Int))))

/-- The per-cell one-way transition property between two grids: every cell
is unchanged or has moved from its old value to the sentinel `-1`, and a cell
already holding `-1` still holds it; changed cells held exactly the traced
value `cp`. -/
def OneWay (rows cols cp : Int) (img img2 : Image) : Prop :=
  ∀ q : Int × Int, inB rows cols q →
    (img.atv q.1 q.2 = -1 → img2.atv q.1 q.2 = -1) ∧
    (img2.atv q.1 q.2 = img.atv q.1 q.2 ∨
      (img.atv q.1 q.2 = cp ∧ img2.atv q.1 q.2 = -1))

instance (a b : Int × Int) : Decidable (adj a b) :=
  inferInstanceAs (Decidable (∃ d ∈ offsets, b = (a.1 + d.1, a.2 + d.2)))

instance (rows cols : Int) (g : Image) (a b : Int × Int) :
    Decidable (eqStep rows cols g a b) :=
  inferInstanceAs (Decidable (_ ∧ _ ∧ _ ∧ _))

/-- The sample image data of `main` (lines 142-148). -/
def demoData : List Int := [1, 1, 2, 2, 3, 3,
  1, 1, 1, 2, 3, 3,
  4, 4, 1, 2, 2, 3,
  4, 4, 4, 5, 5, 5,
  4, 4, 4, 4, 5, 5]

/-- The 5×6 sample image of `main` (line 150). -/
def demoImage : Image := ⟨5, 6, demoData⟩

/-- The nine cells of the `4`-valued region of the sample image. -/
def demoFourRegion : Finset (Int × Int) :=
  {((2 : Int), (0 : Int)), (2, 1), (3, 0), (3, 1), (3, 2), (4, 0), (4, 1),
    (4, 2), (4, 3)}

/-! ## Basic facts about the grid container -/

/-- Membership in `boxF` is exactly `inB`. -/
theorem mem_boxF {rows cols : Int} {p : Int × Int} :
    p ∈ boxF rows cols ↔ inB rows cols p := by
  cases p with
  | mk a b =>
    simp only [boxF, Finset.mem_product, Finset.mem_Icc, inB]
    omega

/-- The set of in-bounds coordinates is finite. -/
theorem inB_finite (rows cols : Int) : (setOf (inB rows cols)).Finite := by
  have h : setOf (inB rows cols) = (boxF rows cols : Set (Int × Int)) := by
    ext p
    simp [mem_boxF, Set.mem_setOf_eq]
  rw [h]
  exact (boxF rows cols).finite_toSet

/-- The flat index of an in-bounds coordinate is nonnegative. -/
theorem index_nonneg {rows cols : Int} {p : Int × Int} (hp : inB rows cols p) :
    0 ≤ p.1 * cols + p.2 := by
  obtain ⟨h1, h2, h3, h4⟩ := hp
  have : 0 ≤ p.1 * cols := mul_nonneg h1 (le_trans h3 (le_of_lt h4))
  omega

/-- The flat index of an in-bounds coordinate is below `rows * cols`. -/
theorem index_lt {rows cols : Int} {p : Int × Int} (hp : inB rows cols p) :
    p.1 * cols + p.2 < rows * cols := by
  obtain ⟨h1, h2, h3, h4⟩ := hp
  nlinarith

/-- Row-major flat indexing is injective on in-bounds coordinates. -/
theorem index_inj {rows cols : Int} {p q : Int × Int} (hp : inB rows cols p)
    (hq : inB rows cols q) (h : p.1 * cols + p.2 = q.1 * cols + q.2) : p = q :=
  by
  obtain ⟨hp1, hp2, hp3, hp4⟩ := hp
  obtain ⟨hq1, hq2, hq3, hq4⟩ := hq
  have h1 : p.1 = q.1 := by
    rcases lt_trichotomy p.1 q.1 with hlt | heq | hgt
    · nlinarith
    · exact heq
    · nlinarith
  have h2 : p.2 = q.2 := by rw [h1] at h; omega
  exact Prod.ext h1 h2

/-- The `toNat` of flat indices of in-bounds coordinates is injective. -/
theorem index_toNat_inj {rows cols : Int} {p q : Int × Int} (hp : inB rows cols p)
    (hq : inB rows cols q)
    (h : (p.1 * cols + p.2).toNat = (q.1 * cols + q.2).toNat) : p = q := by
  apply index_inj hp hq
  have h1 := index_nonneg hp
  have h2 := index_nonneg hq
  omega

/-- The `toNat` of the flat index is below the buffer length of a valid image. -/
theorem index_toNat_lt {img : Image} {rows cols : Int} {p : Int × Int}
    (hv : Valid img rows cols) (hp : inB rows cols p) :
    (p.1 * cols + p.2).toNat < img.data_.length := by
  obtain ⟨_, _, _, _, hlen⟩ := hv
  rw [hlen]
  have h1 := index_nonneg hp
  have h2 := index_lt hp
  omega

/-- Reading an in-bounds cell of a valid image through `Image.at` succeeds and
returns the raw buffer value. -/
theorem at_ok {img : Image} {rows cols : Int} {p : Int × Int}
    (hv : Valid img rows cols) (hp : inB rows cols p) :
    img.at p.1 p.2 = .ok (img.atv p.1 p.2) := by
  obtain ⟨hr, hc, _, _, _⟩ := hv
  obtain ⟨h1, h2, h3, h4⟩ := hp
  rw [Image.at, if_neg]
  rw [hr, hc]
  push_neg
  exact ⟨by omega, by omega, by omega, by omega⟩

/-- Reading an out-of-bounds coordinate fails with `outOfRange`. -/
theorem at_oob {img : Image} {row col : Int}
    (h : row < 0 ∨ row ≥ img.rows_ ∨ col < 0 ∨ col ≥ img.cols_) :
    img.at row col = .error .outOfRange := by
  rw [Image.at, if_pos h]

/-- Writing an out-of-bounds coordinate fails with `outOfRange` (and, the
bounds check preceding the write, produces no image). -/
theorem atSet_oob {img : Image} {row col value : Int}
    (h : row < 0 ∨ row ≥ img.rows_ ∨ col < 0 ∨ col ≥ img.cols_) :
    img.atSet row col value = .error .outOfRange := by
  rw [Image.atSet, if_pos h]

/-- Writing an in-bounds cell of a valid image succeeds, preserves validity,
and changes exactly the written cell. -/
theorem atSet_ok {img : Image} {rows cols : Int} {p : Int × Int}
    (hv : Valid img rows cols) (hp : inB rows cols p) (value : Int) :
    ∃ img2, img.atSet p.1 p.2 value = .ok img2 ∧ Valid img2 rows cols ∧
      ∀ q : Int × Int, inB rows cols q →
        img2.atv q.1 q.2 = if q = p then value else img.atv q.1 q.2 := by
  obtain ⟨hr, hc, hr0, hc0, hlen⟩ := hv
  obtain ⟨h1, h2, h3, h4⟩ := hp
  refine ⟨{ img with data_ := img.data_.set (p.1 * img.cols_ + p.2).toNat value },
    ?_, ?_, ?_⟩
  · rw [Image.atSet, if_neg]
    rw [hr, hc]
    push_neg
    exact ⟨by omega, by omega, by omega, by omega⟩
  · exact ⟨hr, hc, hr0, hc0, by simpa using hlen⟩
  · intro q hq
    have hcols : img.cols_ = cols := hc
    by_cases hqp : q = p
    · subst hqp
      rw [if_pos rfl]
      unfold Image.atv
      simp only [hcols]
      rw [List.getD_eq_getElem?_getD,
        List.getElem?_set_self (index_toNat_lt ⟨hr, hc, hr0, hc0, hlen⟩ hq)]
      rfl
    · rw [if_neg hqp]
      unfold Image.atv
      simp only [hcols]
      rw [List.getD_eq_getElem?_getD, List.getElem?_set_ne, ← List.getD_eq_getElem?_getD]
      intro hcontra
      exact hqp (index_toNat_inj hq ⟨h1, h2, h3, h4⟩ hcontra.symm)

/-! ## Generic reachability lemmas

The flood fill marks cells as it walks, which in graph terms means it
explores the subgraph avoiding a growing set of removed vertices.  Everything
in this section is about an arbitrary step relation `st` on an arbitrary
type, with `stepAvoid st V` the same relation restricted to steps whose
target avoids `V`. -/

theorem stepAvoid_union {α : Type} (st : α → α → Prop) (V W : Set α) :
    stepAvoid (stepAvoid st V) W = stepAvoid st (V ∪ W) := by
  funext a b
  simp only [stepAvoid, Set.mem_union]
  rw [eq_iff_iff]
  tauto

theorem stepAvoid_empty {α : Type} (st : α → α → Prop) :
    stepAvoid st ∅ = st := by
  funext a b
  simp [stepAvoid]

/-- The endpoint of a nonempty avoiding walk avoids the removed set. -/
theorem transAvoid_target {α : Type} {st : α → α → Prop} {V : Set α} {c q : α}
    (h : Relation.TransGen (stepAvoid st V) c q) : q ∉ V := by
  induction h with
  | single h1 => exact h1.2
  | tail _ h2 _ => exact h2.2

/-- The endpoint of an avoiding walk avoids the removed set unless it is the
start. -/
theorem reflTransAvoid_target {α : Type} {st : α → α → Prop} {V : Set α} {c q : α}
    (h : Relation.ReflTransGen (stepAvoid st V) c q) : q = c ∨ q ∉ V := by
  induction h with
  | refl => exact Or.inl rfl
  | tail _ h2 _ => exact Or.inr h2.2

/-- Walks cannot escape an `st`-closed set. -/
theorem stClosed_absorb {α : Type} {st : α → α → Prop} {W : Set α}
    (hW : StClosed st W) {c q : α} (hc : c ∈ W)
    (h : Relation.ReflTransGen st c q) : q ∈ W := by
  induction h with
  | refl => exact hc
  | tail _ h2 ih => exact hW _ ih _ h2

/-- A walk from outside an `st`-closed set `W` to a point outside `W` never
meets `W`, hence is also a walk in the graph with `W` removed. -/
theorem stClosed_shunt {α : Type} {st : α → α → Prop} {W : Set α}
    (hW : StClosed st W) {c q : α} (hc : c ∉ W) (hq : q ∉ W)
    (h : Relation.ReflTransGen st c q) :
    Relation.ReflTransGen (stepAvoid st W) c q := by
  induction h using Relation.ReflTransGen.head_induction_on with
  | refl => exact Relation.ReflTransGen.refl
  | head h1 h2 ih =>
    rename_i a b
    by_cases hb : b ∈ W
    · exact absurd (stClosed_absorb hW hb h2) hq
    · exact Relation.ReflTransGen.head ⟨h1, hb⟩ (ih hb)

/-- Dropping everything before the last visit to the start: a walk from `c`
either stays at `c` or yields a nonempty walk from `c` that never returns to
`c` (and the intermediate points keep avoiding whatever the walk avoided,
because the new walk is a suffix shape of the old one). -/
theorem reflTrans_avoid_start {α : Type} {st : α → α → Prop} {c q : α}
    (h : Relation.ReflTransGen st c q) :
    q = c ∨ Relation.TransGen (stepAvoid st (Set.singleton c)) c q := by
  induction h with
  | refl => exact Or.inl rfl
  | tail h1 h2 ih =>
    rename_i b q'
    by_cases hq : q' = c
    · exact Or.inl hq
    · right
      rcases ih with heq | htg
      · subst heq
        exact Relation.TransGen.single ⟨h2, hq⟩
      · exact Relation.TransGen.tail htg ⟨h2, hq⟩

/-- The set consisting of `b` together with everything reachable from `b`
while avoiding `b` is `st`-closed. -/
theorem stClosed_insert_reach {α : Type} (st : α → α → Prop) (b : α) :
    StClosed st
      (insert b (setOf (Relation.TransGen (stepAvoid st (Set.singleton b)) b))) := by
  intro w hw z hz
  by_cases hzb : z = b
  · subst hzb
    exact Set.mem_insert _ _
  · rcases hw with hwb | hwr
    · subst hwb
      exact Set.mem_insert_of_mem _ (Relation.TransGen.single ⟨hz, hzb⟩)
    · exact Set.mem_insert_of_mem _ (Relation.TransGen.tail hwr ⟨hz, hzb⟩)

/-! ## The traversal relation on grids -/

/-- Endpoints of `gstep` walks are in bounds and hold `cp`, unless the walk
is empty. -/
theorem rtg_gstep_target {rows cols : Int} {g : Image} {cp : Int} {c q : Int × Int}
    (h : Relation.ReflTransGen (gstep rows cols g cp) c q) :
    q = c ∨ (inB rows cols q ∧ g.atv q.1 q.2 = cp) := by
  induction h with
  | refl => exact Or.inl rfl
  | tail _ h2 _ => exact Or.inr ⟨h2.2.1, h2.2.2⟩

/-- `reachLoop` only contains in-bounds cells holding `cp`. -/
theorem reachLoop_subset {rows cols : Int} {g : Image} {cp : Int} {p : Int × Int}
    {ds : List (Int × Int)} :
    reachLoop rows cols g cp p ds ⊆ cpCells rows cols g cp := by
  rintro q ⟨d, _, hin, hval, hrtg⟩
  rcases rtg_gstep_target hrtg with heq | hq
  · rw [heq]
    exact ⟨hin, hval⟩
  · exact hq

theorem cpCells_finite (rows cols : Int) (g : Image) (cp : Int) :
    (cpCells rows cols g cp).Finite :=
  (inB_finite rows cols).subset (fun _ h => h.1)

theorem reachLoop_finite {rows cols : Int} {g : Image} {cp : Int} {p : Int × Int}
    {ds : List (Int × Int)} : (reachLoop rows cols g cp p ds).Finite :=
  (cpCells_finite rows cols g cp).subset reachLoop_subset

/-- On a grid that is `g` with the cells of `S` overwritten by `-1`, the
traversal relation is exactly the `S`-avoiding restriction of the original
one (the sentinel `-1` is distinct from the traced value `cp`). -/
theorem gstep_marked {rows cols : Int} {g g2 : Image} {cp : Int} {S : Set (Int × Int)}
    (hcp : cp ≠ -1) (hchar : MarksOf rows cols g g2 S) :
    gstep rows cols g2 cp = stepAvoid (gstep rows cols g cp) S := by
  funext a b
  rw [eq_iff_iff]
  constructor
  · rintro ⟨hadj, hb, hval⟩
    by_cases hbS : b ∈ S
    · rw [(hchar b hb).1 hbS] at hval
      exact absurd hval.symm hcp
    · rw [(hchar b hb).2 hbS] at hval
      exact ⟨⟨hadj, hb, hval⟩, hbS⟩
  · rintro ⟨⟨hadj, hb, hval⟩, hbS⟩
    refine ⟨hadj, hb, ?_⟩
    rw [(hchar b hb).2 hbS]
    exact hval

/-- Same conversion for the in-bounds `cp` cells: marking `S` removes it. -/
theorem cpCells_marked {rows cols : Int} {g g2 : Image} {cp : Int} {S : Set (Int × Int)}
    (hcp : cp ≠ -1) (hchar : MarksOf rows cols g g2 S) :
    cpCells rows cols g2 cp = cpCells rows cols g cp \ S := by
  ext q
  simp only [cpCells, Set.mem_setOf_eq, Set.mem_diff]
  constructor
  · rintro ⟨hq, hval⟩
    by_cases hqS : q ∈ S
    · rw [(hchar q hq).1 hqS] at hval
      exact absurd hval.symm hcp
    · rw [(hchar q hq).2 hqS] at hval
      exact ⟨⟨hq, hval⟩, hqS⟩
  · rintro ⟨⟨hq, hval⟩, hqS⟩
    refine ⟨hq, ?_⟩
    rw [(hchar q hq).2 hqS]
    exact hval

/-- Composing two pointwise marking characterizations. -/
theorem marksOf_comp {rows cols : Int} {g g2 g3 : Image} {S1 S2 : Set (Int × Int)}
    (h1 : MarksOf rows cols g g2 S1) (h2 : MarksOf rows cols g2 g3 S2) :
    MarksOf rows cols g g3 (S1 ∪ S2) := by
  intro q hq
  constructor
  · intro hmem
    rcases hmem with hm1 | hm2
    · by_cases hq2 : q ∈ S2
      · exact (h2 q hq).1 hq2
      · rw [(h2 q hq).2 hq2]
        exact (h1 q hq).1 hm1
    · exact (h2 q hq).1 hm2
  · intro hnot
    rw [(h2 q hq).2 (fun hm => hnot (Set.mem_union_right _ hm)),
      (h1 q hq).2 (fun hm => hnot (Set.mem_union_left _ hm))]

/-- Nonempty walks from `p` are exactly membership in the full-offset-list
`reachLoop` at `p`: the first step goes to one of the four neighbors. -/
theorem transGen_eq_reachLoop_offsets (rows cols : Int) (g : Image) (cp : Int)
    (p : Int × Int) :
    setOf (Relation.TransGen (gstep rows cols g cp) p) =
      reachLoop rows cols g cp p offsets := by
  ext q
  simp only [Set.mem_setOf_eq]
  constructor
  · intro h
    rcases Relation.TransGen.head'_iff.mp h with ⟨b, hstep, hrtg⟩
    obtain ⟨⟨d, hd, hbd⟩, hin, hval⟩ := hstep
    subst hbd
    exact ⟨d, hd, hin, hval, hrtg⟩
  · rintro ⟨d, hd, hin, hval, hrtg⟩
    exact Relation.TransGen.head' ⟨⟨d, hd, rfl⟩, hin, hval⟩ hrtg

theorem stepAvoid_le {α : Type} (st : α → α → Prop) (V : Set α) :
    ∀ a b, stepAvoid st V a b → st a b := fun _ _ h => h.1

/-- Endpoints of nonempty `gstep` walks are in bounds and hold `cp`. -/
theorem tg_gstep_target {rows cols : Int} {g : Image} {cp : Int} {c q : Int × Int}
    (h : Relation.TransGen (gstep rows cols g cp) c q) :
    inB rows cols q ∧ g.atv q.1 q.2 = cp := by
  induction h with
  | single h1 => exact ⟨h1.2.1, h1.2.2⟩
  | tail _ h2 _ => exact ⟨h2.2.1, h2.2.2⟩

/-- Bridge from the `Image.atSet` characterization to `MarksOf`. -/
theorem marksOf_single {rows cols : Int} {img img2 : Image} {p : Int × Int}
    (h : ∀ q : Int × Int, inB rows cols q →
      img2.atv q.1 q.2 = if q = p then -1 else img.atv q.1 q.2) :
    MarksOf rows cols img img2 (Set.singleton p) := by
  intro q hq
  constructor
  · intro hmem
    rw [h q hq, if_pos (Set.mem_singleton_iff.mp hmem)]
  · intro hnot
    rw [h q hq, if_neg (fun he => hnot (Set.mem_singleton_iff.mpr he))]

theorem reachSeed_subset {rows cols : Int} {g : Image} {cp : Int} {b : Int × Int} :
    reachSeed rows cols g cp b ⊆ cpCells rows cols g cp := fun q hq =>
  tg_gstep_target (hq.mono (stepAvoid_le _ _))

theorem reachSeed_finite {rows cols : Int} {g : Image} {cp : Int} {b : Int × Int} :
    (reachSeed rows cols g cp b).Finite :=
  (cpCells_finite rows cols g cp).subset reachSeed_subset

theorem reachLoopAvoid_subset {rows cols : Int} {g : Image} {cp : Int}
    {p : Int × Int} {ds : List (Int × Int)} {W : Set (Int × Int)} :
    reachLoopAvoid rows cols g cp p ds W ⊆ cpCells rows cols g cp := by
  rintro q ⟨d, _, hin, _, hval, hrtg⟩
  rcases rtg_gstep_target (hrtg.mono (stepAvoid_le _ _)) with heq | hq
  · rw [heq]
    exact ⟨hin, hval⟩
  · exact hq

theorem reachLoopAvoid_finite {rows cols : Int} {g : Image} {cp : Int}
    {p : Int × Int} {ds : List (Int × Int)} {W : Set (Int × Int)} :
    (reachLoopAvoid rows cols g cp p ds W).Finite :=
  (cpCells_finite rows cols g cp).subset reachLoopAvoid_subset

/-- Elements of `reachLoopAvoid` avoid `W`. -/
theorem reachLoopAvoid_avoids {rows cols : Int} {g : Image} {cp : Int}
    {p : Int × Int} {ds : List (Int × Int)} {W : Set (Int × Int)} {q : Int × Int}
    (hq : q ∈ reachLoopAvoid rows cols g cp p ds W) : q ∉ W := by
  obtain ⟨d, _, _, hnW, _, hrtg⟩ := hq
  rcases reflTransAvoid_target hrtg with heq | h
  · rw [heq]
    exact hnW
  · exact h

/-- `reachLoop` on a grid that is `g` with `W` marked, re-expressed over
`g`. -/
theorem reachLoop_marked {rows cols : Int} {g g2 : Image} {cp : Int}
    {W : Set (Int × Int)} (hcp : cp ≠ -1) (hchar : MarksOf rows cols g g2 W)
    (p : Int × Int) (ds : List (Int × Int)) :
    reachLoop rows cols g2 cp p ds = reachLoopAvoid rows cols g cp p ds W := by
  ext q
  simp only [reachLoop, reachLoopAvoid, Set.mem_setOf_eq]
  rw [gstep_marked hcp hchar]
  constructor
  · rintro ⟨d, hd, hin, hval, hrtg⟩
    by_cases hW : (p.1 + d.1, p.2 + d.2) ∈ W
    · rw [(hchar _ hin).1 hW] at hval
      exact absurd hval.symm hcp
    · rw [(hchar _ hin).2 hW] at hval
      exact ⟨d, hd, hin, hW, hval, hrtg⟩
  · rintro ⟨d, hd, hin, hW, hval, hrtg⟩
    refine ⟨d, hd, hin, ?_, hrtg⟩
    rw [(hchar _ hin).2 hW]
    exact hval

/-- The seed block is closed under traversal steps. -/
theorem seedBlock_closed (rows cols : Int) (g : Image) (cp : Int) (b : Int × Int) :
    StClosed (gstep rows cols g cp) (seedBlock rows cols g cp b) :=
  stClosed_insert_reach (gstep rows cols g cp) b

/-- The depth-first decomposition: with `b := p + d` an in-bounds neighbor
currently holding `cp`, the cells marked by the loop over `d :: rest` split
into `b` itself, the cells marked by the recursive call at `b`, and the cells
marked by the loop over `rest` on the grid where all of the former are
already marked. -/
theorem reachLoop_cons_decomp {rows cols : Int} {g : Image} {cp : Int}
    {p d : Int × Int} (rest : List (Int × Int))
    (hin : inB rows cols (p.1 + d.1, p.2 + d.2))
    (hval : g.atv (p.1 + d.1) (p.2 + d.2) = cp) :
    reachLoop rows cols g cp p (d :: rest) =
      insert (p.1 + d.1, p.2 + d.2)
        (reachSeed rows cols g cp (p.1 + d.1, p.2 + d.2) ∪
          reachLoopAvoid rows cols g cp p rest
            (seedBlock rows cols g cp (p.1 + d.1, p.2 + d.2))) := by
  set b : Int × Int := (p.1 + d.1, p.2 + d.2) with hb
  have hclosed := seedBlock_closed rows cols g cp b
  ext q
  constructor
  · rintro ⟨d0, hd0, hin0, hval0, hrtg0⟩
    by_cases hqW : q ∈ seedBlock rows cols g cp b
    · rcases hqW with hqb | hqr
      · exact Set.mem_insert_iff.mpr (Or.inl hqb)
      · exact Set.mem_insert_iff.mpr (Or.inr (Set.mem_union_left _ hqr))
    · set c : Int × Int := (p.1 + d0.1, p.2 + d0.2) with hc
      by_cases hcW : c ∈ seedBlock rows cols g cp b
      · exact absurd (stClosed_absorb hclosed hcW hrtg0) hqW
      · have hcb : c ≠ b := fun he => hcW (he ▸ Set.mem_insert _ _)
        have hd0rest : d0 ∈ rest := by
          rcases List.mem_cons.mp hd0 with he | hr
          · exfalso
            apply hcb
            rw [hc, hb, he]
          · exact hr
        refine Set.mem_insert_iff.mpr (Or.inr (Set.mem_union_right _ ?_))
        exact ⟨d0, hd0rest, hin0, hcW, hval0,
          stClosed_shunt hclosed hcW hqW hrtg0⟩
  · intro hq
    rcases Set.mem_insert_iff.mp hq with hqb | hqmem
    · exact ⟨d, List.mem_cons_self d rest, hin, hval, by rw [hqb]⟩
    · rcases hqmem with hqr | hqa
      · exact ⟨d, List.mem_cons_self d rest, hin, hval,
          (hqr.mono (stepAvoid_le _ _)).to_reflTransGen⟩
      · obtain ⟨d2, hd2, hin2, _, hval2, hrtg2⟩ := hqa
        exact ⟨d2, List.mem_cons.mpr (Or.inr hd2), hin2, hval2,
          hrtg2.mono (stepAvoid_le _ _)⟩

/-- Cardinality form of the decomposition. -/
theorem ncard_insert_union_eq {A B : Set (Int × Int)} {x : Int × Int}
    (hxA : x ∉ A) (hxB : x ∉ B) (hAB : Disjoint A B)
    (hA : A.Finite) (hB : B.Finite) :
    (insert x (A ∪ B)).ncard = 1 + A.ncard + B.ncard := by
  rw [Set.ncard_insert_of_not_mem (fun hmem => hmem.elim hxA hxB) (hA.union hB),
    Set.ncard_union_eq hAB hA hB]
  ring

theorem at_ok2 {img : Image} {rows cols row col : Int} (hv : Valid img rows cols)
    (h : inB rows cols (row, col)) : img.at row col = .ok (img.atv row col) :=
  at_ok hv h

theorem atSet_ok2 {img : Image} {rows cols row col : Int} (hv : Valid img rows cols)
    (h : inB rows cols (row, col)) (value : Int) :
    ∃ img2, img.atSet row col value = .ok img2 ∧ Valid img2 rows cols ∧
      ∀ q : Int × Int, inB rows cols q →
        img2.atv q.1 q.2 = if q = (row, col) then value else img.atv q.1 q.2 :=
  atSet_ok hv h value

/-- A skipped offset (out of bounds, or not holding `cp`) contributes
nothing. -/
theorem reachLoop_cons_of_not {rows cols : Int} {g : Image} {cp : Int}
    {p d : Int × Int} {rest : List (Int × Int)}
    (h : ¬(inB rows cols (p.1 + d.1, p.2 + d.2) ∧
      g.atv (p.1 + d.1) (p.2 + d.2) = cp)) :
    reachLoop rows cols g cp p (d :: rest) = reachLoop rows cols g cp p rest := by
  ext q
  constructor
  · rintro ⟨d0, hd0, hin, hval, hrtg⟩
    rcases List.mem_cons.mp hd0 with he | hr
    · subst he
      exact absurd ⟨hin, hval⟩ h
    · exact ⟨d0, hr, hin, hval, hrtg⟩
  · rintro ⟨d0, hd0, hin, hval, hrtg⟩
    exact ⟨d0, List.mem_cons.mpr (Or.inr hd0), hin, hval, hrtg⟩

/-- The empty offset list reaches nothing. -/
theorem reachLoop_nil {rows cols : Int} {g : Image} {cp : Int} {p : Int × Int} :
    reachLoop rows cols g cp p [] = ∅ := by
  ext q
  simp [reachLoop]

/-- Main specification of the traversal loop `CheckNbr`: given enough fuel,
it never fails, it adds to the running count exactly the number of cells in
`reachLoop` (the cells reachable through a remaining offset), and it marks
exactly those cells with `-1`. -/
theorem checkNbr_spec {rows cols cp : Int} (hcp : cp ≠ -1) :
    ∀ (fuel : Nat) (nbrs : List (Int × Int)) (g : Image) (p : Int × Int) (count : Int),
      Valid g rows cols →
      5 * (cpCells rows cols g cp).ncard + nbrs.length ≤ fuel →
      ∃ g2, CheckNbr fuel rows cols g p.1 p.2 cp count nbrs =
          .ok (count + ((reachLoop rows cols g cp p nbrs).ncard : Int), g2) ∧
        Valid g2 rows cols ∧
        MarksOf rows cols g g2 (reachLoop rows cols g cp p nbrs) := by
  intro fuel
  induction fuel with
  | zero =>
    intro nbrs g p count hv hfuel
    cases nbrs with
    | nil =>
      refine ⟨g, ?_, hv, ?_⟩
      · rw [CheckNbr, reachLoop_nil]
        simp
      · intro q hq
        rw [reachLoop_nil]
        exact ⟨fun h => absurd h (Set.not_mem_empty q), fun _ => rfl⟩
    | cons d rest => simp at hfuel
  | succ f ih =>
    intro nbrs g p count hv hfuel
    cases nbrs with
    | nil =>
      refine ⟨g, ?_, hv, ?_⟩
      · rw [CheckNbr, reachLoop_nil]
        simp
      · intro q hq
        rw [reachLoop_nil]
        exact ⟨fun h => absurd h (Set.not_mem_empty q), fun _ => rfl⟩
    | cons d rest =>
      rw [CheckNbr]
      by_cases hinb : inB rows cols (p.1 + d.1, p.2 + d.2)
      · rw [if_pos (show 0 ≤ p.1 + d.1 ∧ p.1 + d.1 < rows ∧ 0 ≤ p.2 + d.2 ∧
          p.2 + d.2 < cols from hinb), at_ok2 hv hinb]
        by_cases hveq : g.atv (p.1 + d.1) (p.2 + d.2) = cp
        · simp only [if_pos hveq]
          obtain ⟨g1, hset, hv1, hchar1⟩ := atSet_ok2 hv hinb (-1)
          rw [hset]
          dsimp only
          have hmark1 : MarksOf rows cols g g1
              (Set.singleton (p.1 + d.1, p.2 + d.2)) := marksOf_single hchar1
          have hbmem : (p.1 + d.1, p.2 + d.2) ∈ cpCells rows cols g cp :=
            ⟨hinb, hveq⟩
          have hcp1 : cpCells rows cols g1 cp =
              cpCells rows cols g cp \ Set.singleton (p.1 + d.1, p.2 + d.2) :=
            cpCells_marked hcp hmark1
          have hNpos : 0 < (cpCells rows cols g cp).ncard :=
            (Set.ncard_pos (cpCells_finite rows cols g cp)).mpr ⟨_, hbmem⟩
          have hcard1 : (cpCells rows cols g1 cp).ncard =
              (cpCells rows cols g cp).ncard - 1 := by
            rw [hcp1]
            exact Set.ncard_diff_singleton_of_mem hbmem (cpCells_finite rows cols g cp)
          obtain ⟨g2, hrun1, hv2, hmark2⟩ :=
            ih offsets g1 (p.1 + d.1, p.2 + d.2) (count + 1) hv1
              (by
                rw [hcard1]
                simp only [offsets, List.length_cons, List.length_nil] at *
                omega)
          have hRS : reachLoop rows cols g1 cp (p.1 + d.1, p.2 + d.2) offsets =
              reachSeed rows cols g cp (p.1 + d.1, p.2 + d.2) := by
            rw [← transGen_eq_reachLoop_offsets, reachSeed,
              gstep_marked hcp hmark1]
          rw [hRS] at hrun1 hmark2
          dsimp only at hrun1
          rw [hrun1]
          have hmarkSeed : MarksOf rows cols g g2
              (seedBlock rows cols g cp (p.1 + d.1, p.2 + d.2)) := by
            rw [seedBlock, ← Set.singleton_union]
            exact marksOf_comp hmark1 hmark2
          have hcplow : (cpCells rows cols g2 cp).ncard ≤
              (cpCells rows cols g cp).ncard - 1 := by
            rw [cpCells_marked hcp hmarkSeed]
            calc (cpCells rows cols g cp \
                  seedBlock rows cols g cp (p.1 + d.1, p.2 + d.2)).ncard
                ≤ (cpCells rows cols g cp \
                  Set.singleton (p.1 + d.1, p.2 + d.2)).ncard := by
                  apply Set.ncard_le_ncard
                  · apply Set.diff_subset_diff_right
                    intro x hx
                    rw [show x = (p.1 + d.1, p.2 + d.2) from hx]
                    exact Set.mem_insert _ _
                  · exact ((cpCells_finite rows cols g cp).diff _)
              _ = (cpCells rows cols g cp).ncard - 1 :=
                  Set.ncard_diff_singleton_of_mem hbmem (cpCells_finite rows cols g cp)
          obtain ⟨g3, hrun2, hv3, hmark3⟩ :=
            ih rest g2 p (count + 1 + ((reachSeed rows cols g cp
              (p.1 + d.1, p.2 + d.2)).ncard : Int)) hv2
              (by
                simp only [List.length_cons] at hfuel
                omega)
          have hRLA : reachLoop rows cols g2 cp p rest =
              reachLoopAvoid rows cols g cp p rest
                (seedBlock rows cols g cp (p.1 + d.1, p.2 + d.2)) :=
            reachLoop_marked hcp hmarkSeed p rest
          dsimp only
          rw [hrun2]
          have hdecomp := reachLoop_cons_decomp rest hinb hveq
          have hbnotseed : (p.1 + d.1, p.2 + d.2) ∉
              reachSeed rows cols g cp (p.1 + d.1, p.2 + d.2) := by
            intro hmem
            have h2 : Relation.TransGen
                (stepAvoid (gstep rows cols g cp)
                  (Set.singleton (p.1 + d.1, p.2 + d.2)))
                (p.1 + d.1, p.2 + d.2) (p.1 + d.1, p.2 + d.2) := hmem
            exact transAvoid_target h2 rfl
          have hbnotavoid : (p.1 + d.1, p.2 + d.2) ∉
              reachLoopAvoid rows cols g cp p rest
                (seedBlock rows cols g cp (p.1 + d.1, p.2 + d.2)) := by
            intro hmem
            exact reachLoopAvoid_avoids hmem (Set.mem_insert _ _)
          have hdisj : Disjoint (reachSeed rows cols g cp (p.1 + d.1, p.2 + d.2))
              (reachLoopAvoid rows cols g cp p rest
                (seedBlock rows cols g cp (p.1 + d.1, p.2 + d.2))) := by
            rw [Set.disjoint_left]
            intro x hx1 hx2
            exact reachLoopAvoid_avoids hx2 (Set.mem_insert_of_mem _ hx1)
          have hncard : ((reachLoop rows cols g cp p (d :: rest)).ncard : Int) =
              1 + (reachSeed rows cols g cp (p.1 + d.1, p.2 + d.2)).ncard +
                (reachLoopAvoid rows cols g cp p rest
                  (seedBlock rows cols g cp (p.1 + d.1, p.2 + d.2))).ncard := by
            rw [hdecomp, ncard_insert_union_eq hbnotseed hbnotavoid hdisj
              reachSeed_finite reachLoopAvoid_finite]
            push_cast
            ring
          refine ⟨g3, ?_, hv3, ?_⟩
          · rw [hRLA, hncard]
            congr 1
            congr 1
            push_cast
            ring
          · have := marksOf_comp hmarkSeed (hRLA ▸ hmark3)
            have hsets : seedBlock rows cols g cp (p.1 + d.1, p.2 + d.2) ∪
                reachLoopAvoid rows cols g cp p rest
                  (seedBlock rows cols g cp (p.1 + d.1, p.2 + d.2)) =
                reachLoop rows cols g cp p (d :: rest) := by
              rw [hdecomp, seedBlock, Set.insert_union]
            rwa [hsets] at this
        · simp only [if_neg hveq]
          rw [reachLoop_cons_of_not (fun hand => hveq hand.2)]
          exact ih rest g p count hv
            (by simp only [List.length_cons] at hfuel; omega)
      · rw [if_neg (show ¬(0 ≤ p.1 + d.1 ∧ p.1 + d.1 < rows ∧ 0 ≤ p.2 + d.2 ∧
          p.2 + d.2 < cols) from hinb)]
        rw [reachLoop_cons_of_not (fun hand => hinb hand.1)]
        exact ih rest g p count hv
          (by simp only [List.length_cons] at hfuel; omega)

/-- Specification of one full seeded traversal `CheckNextPixel`: starting
from a marked seed, it counts and marks exactly the cells reachable from the
seed through `cp`-valued cells. -/
theorem checkNextPixel_spec {rows cols cp : Int} (hcp : cp ≠ -1) (fuel : Nat)
    (g : Image) (p : Int × Int) (count : Int) (hv : Valid g rows cols)
    (hfuel : 5 * (cpCells rows cols g cp).ncard + 4 ≤ fuel) :
    ∃ g2, CheckNextPixel fuel rows cols g p.1 p.2 cp count =
        .ok (count + ((setOf (Relation.TransGen (gstep rows cols g cp) p)).ncard : Int), g2) ∧
      Valid g2 rows cols ∧
      MarksOf rows cols g g2 (setOf (Relation.TransGen (gstep rows cols g cp) p)) := by
  obtain ⟨g2, hrun, hv2, hmark⟩ := checkNbr_spec hcp fuel offsets g p count hv hfuel
  rw [transGen_eq_reachLoop_offsets]
  exact ⟨g2, hrun, hv2, hmark⟩

/-! ## The reference notion of a region, and its interplay with the scan -/

/-- 4-adjacency is symmetric. -/
theorem adj_symm {a b : Int × Int} (h : adj a b) : adj b a := by
  obtain ⟨d, hd, hb⟩ := h
  subst hb
  simp only [offsets, List.mem_cons, List.not_mem_nil, or_false] at hd
  rcases hd with h1 | h1 | h1 | h1 <;> subst h1
  · exact ⟨(1, 0), by simp [offsets], by simp⟩
  · exact ⟨(-1, 0), by simp [offsets], by simp⟩
  · exact ⟨(0, 1), by simp [offsets], by simp⟩
  · exact ⟨(0, -1), by simp [offsets], by simp⟩

/-- The equal-value step is symmetric. -/
theorem eqStep_symm {rows cols : Int} {g : Image} : Symmetric (eqStep rows cols g) :=
  fun _ _ h => ⟨adj_symm h.1, h.2.2.1, h.2.1, h.2.2.2.symm⟩

/-- Every cell of a region carries the value of its base cell. -/
theorem region_value {rows cols : Int} {g : Image} {p r : Int × Int}
    (h : r ∈ region rows cols g p) : g.atv r.1 r.2 = g.atv p.1 p.2 := by
  induction h with
  | refl => rfl
  | tail _ h2 ih => rw [← h2.2.2.2, ih]

/-- Every cell of a region is in bounds or is the base cell itself. -/
theorem region_inB {rows cols : Int} {g : Image} {p r : Int × Int}
    (h : r ∈ region rows cols g p) : r = p ∨ inB rows cols r := by
  induction h with
  | refl => exact Or.inl rfl
  | tail _ h2 _ => exact Or.inr h2.2.2.1

/-- Region membership is symmetric. -/
theorem region_mem_symm {rows cols : Int} {g : Image} {p r : Int × Int}
    (h : r ∈ region rows cols g p) : p ∈ region rows cols g r :=
  Relation.ReflTransGen.symmetric eqStep_symm h

/-- Region membership is transitive. -/
theorem region_mem_trans {rows cols : Int} {g : Image} {p r s : Int × Int}
    (h1 : r ∈ region rows cols g p) (h2 : s ∈ region rows cols g r) :
    s ∈ region rows cols g p :=
  Relation.ReflTransGen.trans h1 h2

/-- Cells of one region span identical regions. -/
theorem region_congr {rows cols : Int} {g : Image} {p r : Int × Int}
    (h : r ∈ region rows cols g p) :
    region rows cols g r = region rows cols g p := by
  ext s
  exact ⟨fun hs => region_mem_trans h hs,
    fun hs => region_mem_trans (region_mem_symm h) hs⟩

theorem region_self {rows cols : Int} {g : Image} {p : Int × Int} :
    p ∈ region rows cols g p := Relation.ReflTransGen.refl

/-- Regions of in-bounds cells consist of in-bounds cells and are finite. -/
theorem region_finite {rows cols : Int} {g : Image} {p : Int × Int}
    (hp : inB rows cols p) : (region rows cols g p).Finite := by
  apply (inB_finite rows cols).subset
  intro r hr
  rcases region_inB hr with he | hi
  · rw [he]
    exact hp
  · exact hi

theorem scanned_subset_inB {rows cols : Int} {g0 : Image} {P : Finset (Int × Int)} :
    scanned rows cols g0 P ⊆ setOf (inB rows cols) := by
  rintro r ⟨q, _, hq, _, hr⟩
  rcases region_inB hr with he | hi
  · rw [he]
    exact hq
  · exact hi

theorem scanned_ne_neg {rows cols : Int} {g0 : Image} {P : Finset (Int × Int)}
    {r : Int × Int} (h : r ∈ scanned rows cols g0 P) : g0.atv r.1 r.2 ≠ -1 := by
  obtain ⟨q, _, _, hqv, hr⟩ := h
  rw [region_value hr]
  exact hqv

/-- `scanned` absorbs whole regions. -/
theorem scanned_region_subset {rows cols : Int} {g0 : Image} {P : Finset (Int × Int)}
    {c : Int × Int} (h : c ∈ scanned rows cols g0 P) :
    region rows cols g0 c ⊆ scanned rows cols g0 P := by
  obtain ⟨q, hqP, hq1, hq2, hcq⟩ := h
  intro r hr
  exact ⟨q, hqP, hq1, hq2, region_mem_trans hcq ((region_congr hcq) ▸ hr)⟩

/-- Adding an already-consumed or sentinel-valued cell to the seed set does
not change the consumed set. -/
theorem scanned_insert_skip {rows cols : Int} {g0 : Image} {P : Finset (Int × Int)}
    {c : Int × Int} (h : c ∈ scanned rows cols g0 P ∨ g0.atv c.1 c.2 = -1) :
    scanned rows cols g0 (insert c P) = scanned rows cols g0 P := by
  ext r
  constructor
  · rintro ⟨q, hqP, hq1, hq2, hr⟩
    rcases Finset.mem_insert.mp hqP with he | hm
    · subst he
      rcases h with hc | hc
      · exact scanned_region_subset hc hr
      · exact absurd hc hq2
    · exact ⟨q, hm, hq1, hq2, hr⟩
  · rintro ⟨q, hqP, hq1, hq2, hr⟩
    exact ⟨q, Finset.mem_insert_of_mem hqP, hq1, hq2, hr⟩

/-- Adding a fresh unvisited seed adds exactly its region. -/
theorem scanned_insert_seed {rows cols : Int} {g0 : Image} {P : Finset (Int × Int)}
    {c : Int × Int} (hc : inB rows cols c) (hval : g0.atv c.1 c.2 ≠ -1) :
    scanned rows cols g0 (insert c P) =
      scanned rows cols g0 P ∪ region rows cols g0 c := by
  ext r
  constructor
  · rintro ⟨q, hqP, hq1, hq2, hr⟩
    rcases Finset.mem_insert.mp hqP with he | hm
    · subst he
      exact Or.inr hr
    · exact Or.inl ⟨q, hm, hq1, hq2, hr⟩
  · rintro (⟨q, hqP, hq1, hq2, hr⟩ | hr)
    · exact ⟨q, Finset.mem_insert_of_mem hqP, hq1, hq2, hr⟩
    · exact ⟨c, Finset.mem_insert_self c P, hc, hval, hr⟩

/-- Nonempty traversal walks from a `cp`-valued in-bounds cell stay inside
its region. -/
theorem tg_gstep_subset_region {rows cols : Int} {g0 : Image} {cp : Int}
    {c q : Int × Int} (hcin : inB rows cols c) (hcv : g0.atv c.1 c.2 = cp)
    (h : Relation.TransGen (gstep rows cols g0 cp) c q) :
    q ∈ region rows cols g0 c := by
  induction h with
  | single h1 =>
    exact Relation.ReflTransGen.single ⟨h1.1, hcin, h1.2.1, by rw [hcv, h1.2.2]⟩
  | tail h1 h2 ih =>
    rename_i x y
    have hx := tg_gstep_target (h1.mono (fun _ _ hh => hh))
    exact Relation.ReflTransGen.tail ih ⟨h2.1, hx.1, h2.2.1, by rw [hx.2, h2.2.2]⟩

/-- The key decomposition used when the scan seeds a traversal at a fresh
unvisited cell `c`: the region of `c` is exactly `c` together with what the
traversal, run on the grid with `c` and all previously consumed cells
marked, reaches from `c`. -/
theorem region_seed_decomp {rows cols : Int} {g0 : Image} {cp : Int}
    {c : Int × Int} {V : Set (Int × Int)} (hcin : inB rows cols c)
    (hcV : c ∉ V) (hval : g0.atv c.1 c.2 = cp)
    (hVclosed : ∀ r ∈ V, region rows cols g0 r ⊆ V) :
    region rows cols g0 c =
      insert c (setOf (Relation.TransGen
        (stepAvoid (gstep rows cols g0 cp) (insert c V)) c)) := by
  have hreg_avoid : ∀ s ∈ region rows cols g0 c, s ∉ V := by
    intro s hs hsV
    exact hcV (hVclosed s hsV (region_mem_symm hs))
  ext r
  constructor
  · intro hr
    have hconv : Relation.ReflTransGen
        (stepAvoid (gstep rows cols g0 cp) V) c r := by
      clear hreg_avoid
      induction hr with
      | refl => exact Relation.ReflTransGen.refl
      | tail h1 h2 ih =>
        rename_i x y
        have hyreg : y ∈ region rows cols g0 c :=
          Relation.ReflTransGen.tail h1 h2
        have hyval : g0.atv y.1 y.2 = cp := by
          rw [region_value hyreg, hval]
        have hynotV : y ∉ V := by
          intro hyV
          exact hcV (hVclosed y hyV (region_mem_symm hyreg))
        exact Relation.ReflTransGen.tail ih
          ⟨⟨h2.1, h2.2.2.1, hyval⟩, hynotV⟩
    rcases reflTrans_avoid_start hconv with he | htg
    · rw [he]
      exact Set.mem_insert _ _
    · rw [stepAvoid_union] at htg
      apply Set.mem_insert_of_mem
      have hsets : V ∪ Set.singleton c = insert c V := by
        ext x
        constructor
        · rintro (hx | hx)
          · exact Set.mem_insert_of_mem _ hx
          · exact Set.mem_insert_iff.mpr (Or.inl hx)
        · intro hx
          rcases Set.mem_insert_iff.mp hx with he | hm
          · exact Or.inr he
          · exact Or.inl hm
      rw [hsets] at htg
      exact htg
  · intro hr
    rcases Set.mem_insert_iff.mp hr with he | htg
    · rw [he]
      exact region_self
    · exact tg_gstep_subset_region hcin hval
        (Relation.TransGen.mono (stepAvoid_le _ _) htg)

theorem union_singleton_eq_insert {α : Type} (A : Set α) (x : α) :
    A ∪ Set.singleton x = insert x A := by
  ext y
  constructor
  · rintro (hy | hy)
    · exact Set.mem_insert_of_mem _ hy
    · exact Set.mem_insert_iff.mpr (Or.inl hy)
  · intro hy
    rcases Set.mem_insert_iff.mp hy with he | hm
    · exact Or.inr he
    · exact Or.inl hm

theorem setOf_inB_eq (rows cols : Int) :
    setOf (inB rows cols) = (boxF rows cols : Set (Int × Int)) := by
  ext p
  simp [mem_boxF, Set.mem_setOf_eq]

theorem boxF_card {rows cols : Int} (hr : 0 ≤ rows) (hc : 0 ≤ cols) :
    (boxF rows cols).card = (rows * cols).toNat := by
  rw [boxF, Finset.card_product, Int.card_Icc, Int.card_Icc]
  simp only [sub_zero, sub_add_cancel]
  have h1 : ((rows.toNat * cols.toNat : ℕ) : ℤ) = rows * cols := by
    push_cast [Int.toNat_of_nonneg hr, Int.toNat_of_nonneg hc]
    ring
  have h2 : (((rows * cols).toNat : ℕ) : ℤ) = rows * cols :=
    Int.toNat_of_nonneg (mul_nonneg hr hc)
  exact Nat.cast_inj.mp (h1.trans h2.symm)

theorem cpCells_ncard_le {rows cols : Int} (g : Image) (cp : Int)
    (hr : 0 ≤ rows) (hc : 0 ≤ cols) :
    (cpCells rows cols g cp).ncard ≤ (rows * cols).toNat := by
  have h1 : (cpCells rows cols g cp).ncard ≤ (setOf (inB rows cols)).ncard :=
    Set.ncard_le_ncard (fun q hq => hq.1) (inB_finite rows cols)
  rw [setOf_inB_eq, Set.ncard_coe_Finset, boxF_card hr hc] at h1
  exact h1

/-- The C++ idiom `if (new > cur) cur = new` computes the maximum, with the
two operands counts of cells. -/
theorem if_gt_eq_max_cast (a b : ℕ) :
    (if (b : Int) > (a : Int) then (b : Int) else (a : Int)) = ((a ⊔ b : ℕ) : Int) := by
  rcases le_or_lt b a with h | h
  · rw [if_neg (by exact_mod_cast not_lt.mpr h), max_eq_left h]
  · rw [if_pos (by exact_mod_cast h), max_eq_right (le_of_lt h)]

/-- One step of the scan preserves the invariant, the processed cell joining
the seed set. -/
theorem scanCell_spec {rows cols : Int} {g0 : Image} {P : Finset (Int × Int)}
    {s : (Int → Int) × Image} {c : Int × Int}
    (hc : inB rows cols c) (hinv : ScanInv rows cols g0 P s) :
    ∃ s2, scanCell rows cols s c.1 c.2 = .ok s2 ∧
      ScanInv rows cols g0 (insert c P) s2 := by
  obtain ⟨hvs, hmarks, hcounts⟩ := hinv
  rw [scanCell, at_ok2 hvs hc]
  by_cases hcur : s.2.atv c.1 c.2 = -1
  · simp only [if_pos hcur]
    have hmem : c ∈ scanned rows cols g0 P ∨ g0.atv c.1 c.2 = -1 := by
      by_cases hcs : c ∈ scanned rows cols g0 P
      · exact Or.inl hcs
      · exact Or.inr (((hmarks c hc).2 hcs) ▸ hcur)
    refine ⟨s, rfl, hvs, ?_, ?_⟩
    · rw [scanned_insert_skip hmem]
      exact hmarks
    · intro v hv
      rw [hcounts v hv]
      by_cases hcv : g0.atv c.1 c.2 = v
      · have hcscan : c ∈ scanned rows cols g0 P := by
          rcases hmem with h | h
          · exact h
          · rw [hcv] at h
            exact absurd h hv
        obtain ⟨q, hqP, hq1, hq2, hcq⟩ := hcscan
        have hfilter : (insert c P).filter (fun r => g0.atv r.1 r.2 = v) =
            insert c (P.filter (fun r => g0.atv r.1 r.2 = v)) := by
          rw [Finset.filter_insert, if_pos hcv]
        rw [hfilter, Finset.sup_insert]
        have hqv : g0.atv q.1 q.2 = v := by
          rw [← region_value hcq, hcv]
        have hqmem : q ∈ P.filter (fun r => g0.atv r.1 r.2 = v) :=
          Finset.mem_filter.mpr ⟨hqP, hqv⟩
        have hcardeq : (region rows cols g0 c).ncard =
            (region rows cols g0 q).ncard := by
          rw [region_congr hcq]
        have hle : (region rows cols g0 c).ncard ≤
            (P.filter (fun r => g0.atv r.1 r.2 = v)).sup
              (fun r => (region rows cols g0 r).ncard) := by
          rw [hcardeq]
          exact Finset.le_sup (f := fun r => (region rows cols g0 r).ncard) hqmem
        rw [max_eq_right hle]
      · rw [Finset.filter_insert, if_neg hcv]
  · simp only [if_neg hcur]
    have hcnot : c ∉ scanned rows cols g0 P := by
      intro hcs
      exact hcur ((hmarks c hc).1 hcs)
    have hg0c : g0.atv c.1 c.2 = s.2.atv c.1 c.2 := ((hmarks c hc).2 hcnot).symm
    obtain ⟨g1, hset, hv1, hchar1⟩ := atSet_ok2 hvs hc (-1)
    rw [hset]
    dsimp only
    have hmark1 : MarksOf rows cols s.2 g1 (Set.singleton c) := marksOf_single hchar1
    have hmark01 : MarksOf rows cols g0 g1 (insert c (scanned rows cols g0 P)) := by
      have h2 := marksOf_comp hmarks hmark1
      rwa [union_singleton_eq_insert] at h2
    obtain ⟨hr0, hc0⟩ : 0 ≤ rows ∧ 0 ≤ cols := ⟨hvs.2.2.1, hvs.2.2.2.1⟩
    obtain ⟨g2, hrun, hv2, hmark2⟩ := checkNextPixel_spec hcur (scanFuel rows cols)
      g1 c 1 hv1
      (by
        have hle := cpCells_ncard_le g1 (s.2.atv c.1 c.2) hr0 hc0
        rw [scanFuel]
        omega)
    have hΔconv : setOf (Relation.TransGen
        (gstep rows cols g1 (s.2.atv c.1 c.2)) c) =
        setOf (Relation.TransGen
          (stepAvoid (gstep rows cols g0 (s.2.atv c.1 c.2))
            (insert c (scanned rows cols g0 P))) c) := by
      rw [gstep_marked hcur hmark01]
    rw [hΔconv] at hrun hmark2
    have hregion : region rows cols g0 c =
        insert c (setOf (Relation.TransGen
          (stepAvoid (gstep rows cols g0 (s.2.atv c.1 c.2))
            (insert c (scanned rows cols g0 P))) c)) :=
      region_seed_decomp hc hcnot hg0c (fun r hr => scanned_region_subset hr)
    have hcfresh : c ∉ setOf (Relation.TransGen
        (stepAvoid (gstep rows cols g0 (s.2.atv c.1 c.2))
          (insert c (scanned rows cols g0 P))) c) :=
      fun h => (transAvoid_target h) (Set.mem_insert _ _)
    have hΔfin : (setOf (Relation.TransGen
        (stepAvoid (gstep rows cols g0 (s.2.atv c.1 c.2))
          (insert c (scanned rows cols g0 P))) c)).Finite := by
      apply (region_finite (g := g0) hc).subset
      intro q hq
      rw [hregion]
      exact Set.mem_insert_of_mem _ hq
    have hcount : (region rows cols g0 c).ncard = (setOf (Relation.TransGen
        (stepAvoid (gstep rows cols g0 (s.2.atv c.1 c.2))
          (insert c (scanned rows cols g0 P))) c)).ncard + 1 := by
      rw [hregion]
      rw [Set.ncard_insert_of_not_mem hcfresh hΔfin]
    rw [hrun]
    dsimp only
    refine ⟨_, rfl, hv2, ?_, ?_⟩
    · have hmarkfull := marksOf_comp hmark01 hmark2
      have hne : g0.atv c.1 c.2 ≠ -1 := by
        rw [hg0c]
        exact hcur
      have hsets : insert c (scanned rows cols g0 P) ∪
          setOf (Relation.TransGen
            (stepAvoid (gstep rows cols g0 (s.2.atv c.1 c.2))
              (insert c (scanned rows cols g0 P))) c) =
          scanned rows cols g0 (insert c P) := by
        rw [scanned_insert_seed hc hne, hregion, Set.insert_union,
          Set.union_insert]
      rwa [hsets] at hmarkfull
    · intro v hv
      have hcountInt : (1 : Int) + ((setOf (Relation.TransGen
          (stepAvoid (gstep rows cols g0 (s.2.atv c.1 c.2))
            (insert c (scanned rows cols g0 P))) c)).ncard : Int) =
          ((region rows cols g0 c).ncard : Int) := by
        rw [hcount]
        push_cast
        ring
      dsimp only
      rw [apply_ite (fun f : Int → Int => f v)]
      rw [hcountInt]
      by_cases hvc : v = s.2.atv c.1 c.2
      · have hpred : g0.atv c.1 c.2 = v := by
          rw [hg0c, hvc]
        rw [Finset.filter_insert, if_pos hpred, Finset.sup_insert,
          if_pos hvc]
        have hs1 : s.1 (s.2.atv c.1 c.2) = s.1 v := by rw [hvc]
        rw [hs1, hcounts v hv, if_gt_eq_max_cast, max_comm]
      · have hpred : ¬g0.atv c.1 c.2 = v := by
          rw [hg0c]
          exact fun he => hvc he.symm
        rw [Finset.filter_insert, if_neg hpred, if_neg hvc, ite_self]
        exact hcounts v hv

/-! ## The full scan -/

/-- Scanning a list of in-bounds cells preserves the invariant, the cells
joining the seed set. -/
theorem scanList_spec {rows cols : Int} {g0 : Image} :
    ∀ (l : List (Int × Int)) (P : Finset (Int × Int)) (s : (Int → Int) × Image),
      (∀ c ∈ l, inB rows cols c) → ScanInv rows cols g0 P s →
      ∃ s2, List.foldlM (fun st (c : Int × Int) => scanCell rows cols st c.1 c.2)
          s l = .ok s2 ∧
        ScanInv rows cols g0 (P ∪ l.toFinset) s2 := by
  intro l
  induction l with
  | nil =>
    intro P s _ hinv
    refine ⟨s, rfl, ?_⟩
    simpa using hinv
  | cons c l ih =>
    intro P s hl hinv
    obtain ⟨s1, hstep, hinv1⟩ := scanCell_spec (hl c (List.mem_cons_self c l)) hinv
    obtain ⟨s2, hrest, hinv2⟩ := ih (insert c P) s1
      (fun x hx => hl x (List.mem_cons_of_mem c hx)) hinv1
    refine ⟨s2, ?_, ?_⟩
    · rw [List.foldlM_cons, hstep]
      exact hrest
    · rw [List.toFinset_cons, Finset.union_insert, ← Finset.insert_union]
      exact hinv2

/-- The nested double loop of `scanGrid` is the flat fold over `cellsList`. -/
theorem scanGrid_eq_foldlM (rows cols : Int) (img : Image) :
    scanGrid rows cols img =
      List.foldlM (fun st (c : Int × Int) => scanCell rows cols st c.1 c.2)
        (fun _ => (0 : Int), img) (cellsList rows cols) := by
  rw [scanGrid, cellsList]
  have h : ∀ (rl : List ℕ) (s0 : (Int → Int) × Image),
      List.foldlM (fun s (row : ℕ) => List.foldlM
        (fun s2 (col : ℕ) => scanCell rows cols s2 (row : Int) (col : Int))
        s (List.range cols.toNat)) s0 rl =
      List.foldlM (fun st (c : Int × Int) => scanCell rows cols st c.1 c.2) s0
        (rl.flatMap (fun r : ℕ => (List.range cols.toNat).map
          (fun c : ℕ => ((r : Int), (c : Int))))) := by
    intro rl
    induction rl with
    | nil => intro s0; rfl
    | cons r rl ih =>
      intro s0
      rw [List.foldlM_cons, List.flatMap_cons, List.foldlM_append, List.foldlM_map]
      dsimp only
      exact bind_congr (fun s1 => ih s1)
  exact h _ _

theorem mem_cellsList {rows cols : Int} {c : Int × Int} :
    c ∈ cellsList rows cols ↔ inB rows cols c := by
  constructor
  · intro h
    simp only [cellsList, List.mem_flatMap, List.mem_map, List.mem_range] at h
    obtain ⟨r, hr, co, hco, he⟩ := h
    subst he
    exact ⟨by omega, by omega, by omega, by omega⟩
  · intro h
    obtain ⟨h1, h2, h3, h4⟩ := h
    simp only [cellsList, List.mem_flatMap, List.mem_map, List.mem_range]
    have hr1 : c.1.toNat < rows.toNat := by omega
    have hr2 : c.2.toNat < cols.toNat := by omega
    have e1 : ((c.1.toNat : ℕ) : ℤ) = c.1 := by omega
    have e2 : ((c.2.toNat : ℕ) : ℤ) = c.2 := by omega
    refine ⟨c.1.toNat, hr1, c.2.toNat, hr2, ?_⟩
    rw [e1, e2]

theorem cellsList_toFinset (rows cols : Int) :
    (cellsList rows cols).toFinset = boxF rows cols := by
  apply Finset.ext
  intro c
  rw [List.mem_toFinset, mem_cellsList, mem_boxF]

/-- The scan invariant holds initially. -/
theorem scanInv_init {rows cols : Int} {g0 : Image} (hv : Valid g0 rows cols) :
    ScanInv rows cols g0 ∅ (fun _ => (0 : Int), g0) := by
  refine ⟨hv, ?_, ?_⟩
  · intro q hq
    constructor
    · rintro ⟨x, hx, _⟩
      exact absurd hx (Finset.not_mem_empty x)
    · intro _
      rfl
  · intro v _
    simp [Finset.filter_empty]

/-- The state after the full scan: the whole grid has been consumed, and
`countForPixel` holds, for every non-sentinel value, the largest region size
among cells of that value. -/
theorem scanGrid_spec {rows cols : Int} {g0 : Image} (hv : Valid g0 rows cols) :
    ∃ s2, scanGrid rows cols g0 = .ok s2 ∧
      ScanInv rows cols g0 (boxF rows cols) s2 := by
  obtain ⟨s2, hrun, hinv⟩ := scanList_spec (cellsList rows cols) ∅
    (fun _ => (0 : Int), g0) (fun c hc => mem_cellsList.mp hc) (scanInv_init hv)
  refine ⟨s2, ?_, ?_⟩
  · rw [scanGrid_eq_foldlM]
    exact hrun
  · rwa [Finset.empty_union, cellsList_toFinset] at hinv

/-- The final `maxCount` loop (lines 99-104) computes the supremum of the 256
slots, each of which is a cast count. -/
theorem foldl_max_eq_sup (G : ℕ → Int) (F : ℕ → ℕ)
    (hGF : ∀ i : ℕ, G i = ((F i : ℕ) : Int)) :
    ∀ n : ℕ, List.foldl (fun m (i : ℕ) => if G i > m then G i else m) 0
        (List.range n) = (((Finset.range n).sup F : ℕ) : Int) := by
  intro n
  induction n with
  | zero => simp
  | succ n ih =>
    rw [List.range_succ, List.foldl_append, ih]
    simp only [List.foldl_cons, List.foldl_nil]
    rw [hGF n, if_gt_eq_max_cast, Finset.range_succ, Finset.sup_insert, max_comm]

/-- Main functional correctness of the embedded program: on any validly
constructed grid, `FindLargestConnected` succeeds and returns the reference
answer `refMax`. -/
theorem find_spec {rows cols : Int} {g0 : Image} (hv : Valid g0 rows cols) :
    FindLargestConnected rows cols g0 = .ok (refMax rows cols g0) := by
  obtain ⟨s2, hrun, hinv⟩ := scanGrid_spec hv
  rw [FindLargestConnected, hrun]
  dsimp only
  have hGF : ∀ i : ℕ, s2.1 (i : Int) =
      ((largestRegion rows cols g0 (i : Int) : ℕ) : Int) := by
    intro i
    rw [largestRegion]
    exact hinv.2.2 (i : Int) (by omega)
  rw [refMax]
  exact congrArg Except.ok
    (foldl_max_eq_sup (fun i : ℕ => s2.1 (i : Int))
      (fun i : ℕ => largestRegion rows cols g0 (i : Int)) hGF 256)

/-! ## The claims -/

/-- Every in-bounds cell value of a valid image is an element of its data
buffer. -/
theorem atv_mem_data {img : Image} {rows cols : Int} (hv : Valid img rows cols)
    {p : Int × Int} (hp : inB rows cols p) : img.atv p.1 p.2 ∈ img.data_ := by
  rw [Image.atv, hv.2.1, List.getD_eq_getElem?_getD,
    List.getElem?_eq_getElem (index_toNat_lt hv hp)]
  exact List.getElem_mem _

/-- C1.  For every grid whose cells all lie in `[0,255]`,
`FindLargestConnected` returns the size of the largest 4-connected region of
equal-valued cells over all values present in the grid, i.e. the reference
quantity `refMax`: the maximum over all values `v` in `[0,256)` (which, under
the hypothesis, covers every value present) of the size of the largest
4-connected region of cells equal to `v`, sizes being measured by the
independent reachability definition `region`. -/
theorem claim_C1 (rows cols : Int) (img : Image) (hv : Valid img rows cols)
    (hvals : ∀ x ∈ img.data_, 0 ≤ x ∧ x ≤ 255) :
    FindLargestConnected rows cols img = .ok (refMax rows cols img) :=
  find_spec hv

/-- Witness for C1 at a concrete 2×3 grid. -/
theorem claim_C1_witness :
    (Valid ⟨2, 3, [1, 1, 2, 2, 2, 2]⟩ 2 3 ∧
      ∀ x ∈ (Image.mk 2 3 [1, 1, 2, 2, 2, 2]).data_, 0 ≤ x ∧ x ≤ 255) ∧
    FindLargestConnected 2 3 ⟨2, 3, [1, 1, 2, 2, 2, 2]⟩ =
      .ok (refMax 2 3 ⟨2, 3, [1, 1, 2, 2, 2, 2]⟩) :=
  ⟨⟨by decide, by decide⟩, claim_C1 2 3 ⟨2, 3, [1, 1, 2, 2, 2, 2]⟩ (by decide) (by decide)⟩

theorem oneWay_trans {rows cols cp : Int} {a b c : Image}
    (h1 : OneWay rows cols cp a b) (h2 : OneWay rows cols cp b c) :
    OneWay rows cols cp a c := by
  intro q hq
  obtain ⟨h1a, h1b⟩ := h1 q hq
  obtain ⟨h2a, h2b⟩ := h2 q hq
  constructor
  · intro h
    exact h2a (h1a h)
  · rcases h1b with hb | ⟨hbv, hbm⟩
    · rcases h2b with hc | ⟨hcv, hcm⟩
      · exact Or.inl (hc.trans hb)
      · exact Or.inr ⟨hb ▸ hcv, hcm⟩
    · exact Or.inr ⟨hbv, h2a hbm⟩

/-- Every step of the traversal only transitions cells one-way into the
visited sentinel: whatever the fuel, a successful run leaves every cell
unchanged or `-1`, never resurrects a `-1` cell, and only ever overwrites
cells that held the traced value. -/
theorem checkNbr_oneway {rows cols cp : Int} :
    ∀ (fuel : Nat) (nbrs : List (Int × Int)) (img : Image)
      (curRow curCol count : Int) (res : Int × Image),
      Valid img rows cols →
      CheckNbr fuel rows cols img curRow curCol cp count nbrs = .ok res →
      Valid res.2 rows cols ∧ OneWay rows cols cp img res.2 := by
  intro fuel
  induction fuel with
  | zero =>
    intro nbrs img curRow curCol count res hv hres
    cases nbrs with
    | nil =>
      rw [CheckNbr] at hres
      cases hres
      exact ⟨hv, fun q hq => ⟨id, Or.inl rfl⟩⟩
    | cons d rest => exact absurd hres (by rw [CheckNbr]; exact fun h => by cases h)
  | succ f ih =>
    intro nbrs img curRow curCol count res hv hres
    cases nbrs with
    | nil =>
      rw [CheckNbr] at hres
      cases hres
      exact ⟨hv, fun q hq => ⟨id, Or.inl rfl⟩⟩
    | cons d rest =>
      rw [CheckNbr] at hres
      by_cases hinb : inB rows cols (curRow + d.1, curCol + d.2)
      · rw [if_pos (show 0 ≤ curRow + d.1 ∧ curRow + d.1 < rows ∧ 0 ≤ curCol + d.2 ∧
          curCol + d.2 < cols from hinb), at_ok2 hv hinb] at hres
        by_cases hveq : img.atv (curRow + d.1) (curCol + d.2) = cp
        · simp only [if_pos hveq] at hres
          obtain ⟨img1, hset, hv1, hchar1⟩ := atSet_ok2 hv hinb (-1)
          rw [hset] at hres
          dsimp only at hres
          have hone1 : OneWay rows cols cp img img1 := by
            intro q hq
            rw [(hchar1 q hq)]
            by_cases hqb : q = (curRow + d.1, curCol + d.2)
            · rw [if_pos hqb]
              exact ⟨fun _ => rfl, Or.inr ⟨by rw [hqb]; exact hveq, rfl⟩⟩
            · rw [if_neg hqb]
              exact ⟨id, Or.inl rfl⟩
          cases hrec : CheckNbr f rows cols img1 (curRow + d.1) (curCol + d.2) cp
            (count + 1) offsets with
          | error e =>
            rw [hrec] at hres
            cases hres
          | ok s =>
            rw [hrec] at hres
            dsimp only at hres
            obtain ⟨hvs, hones⟩ := ih offsets img1 (curRow + d.1) (curCol + d.2)
              (count + 1) s hv1 hrec
            obtain ⟨hvres, honeres⟩ := ih rest s.2 curRow curCol s.1 res hvs hres
            exact ⟨hvres, oneWay_trans (oneWay_trans hone1 hones) honeres⟩
        · simp only [if_neg hveq] at hres
          exact ih rest img curRow curCol count res hv hres
      · rw [if_neg (show ¬(0 ≤ curRow + d.1 ∧ curRow + d.1 < rows ∧ 0 ≤ curCol + d.2 ∧
          curCol + d.2 < cols) from hinb)] at hres
        exact ih rest img curRow curCol count res hv hres

/-- The traversal can only fail artificially (out of fuel), never with an
out-of-range access: every neighbor access is guarded by the bounds check. -/
theorem checkNbr_no_oob {rows cols cp : Int} :
    ∀ (fuel : Nat) (nbrs : List (Int × Int)) (img : Image) (curRow curCol count : Int),
      Valid img rows cols →
      CheckNbr fuel rows cols img curRow curCol cp count nbrs ≠ .error .outOfRange := by
  intro fuel
  induction fuel with
  | zero =>
    intro nbrs img curRow curCol count hv
    cases nbrs with
    | nil => simp [CheckNbr]
    | cons d rest => simp [CheckNbr]
  | succ f ih =>
    intro nbrs img curRow curCol count hv
    cases nbrs with
    | nil => simp [CheckNbr]
    | cons d rest =>
      rw [CheckNbr]
      by_cases hinb : inB rows cols (curRow + d.1, curCol + d.2)
      · rw [if_pos (show 0 ≤ curRow + d.1 ∧ curRow + d.1 < rows ∧ 0 ≤ curCol + d.2 ∧
          curCol + d.2 < cols from hinb), at_ok2 hv hinb]
        by_cases hveq : img.atv (curRow + d.1) (curCol + d.2) = cp
        · simp only [if_pos hveq]
          obtain ⟨img1, hset, hv1, _⟩ := atSet_ok2 hv hinb (-1)
          rw [hset]
          dsimp only
          cases hrec : CheckNbr f rows cols img1 (curRow + d.1) (curCol + d.2) cp
            (count + 1) offsets with
          | error e =>
            intro hcontra
            apply ih offsets img1 (curRow + d.1) (curCol + d.2) (count + 1) hv1
            rw [hrec]
            cases hcontra
            rfl
          | ok s =>
            have hv2 : Valid s.2 rows cols :=
              (checkNbr_oneway f offsets img1 (curRow + d.1) (curCol + d.2)
                (count + 1) s hv1 hrec).1
            exact ih rest s.2 curRow curCol s.1 hv2
        · simp only [if_neg hveq]
          exact ih rest img curRow curCol count hv
      · rw [if_neg (show ¬(0 ≤ curRow + d.1 ∧ curRow + d.1 < rows ∧ 0 ≤ curCol + d.2 ∧
          curCol + d.2 < cols) from hinb)]
        exact ih rest img curRow curCol count hv

/-- C9.  On a validly dimensioned grid with pixel values in the supported
range, no `OutOfRange` error escapes: `FindLargestConnected` succeeds
outright, and `CheckNextPixel` (whatever its arguments and fuel) never
produces an `OutOfRange` error, since the bounds check on each neighbor
precedes every access. -/
theorem claim_C9 (rows cols : Int) (img : Image) (hv : Valid img rows cols)
    (hvals : ∀ x ∈ img.data_, 0 ≤ x ∧ x ≤ 255) :
    (∃ n : Int, FindLargestConnected rows cols img = .ok n) ∧
    ∀ (fuel : Nat) (curRow curCol currentPixel currentCount : Int),
      CheckNextPixel fuel rows cols img curRow curCol currentPixel currentCount ≠
        .error .outOfRange :=
  ⟨⟨refMax rows cols img, find_spec hv⟩,
    fun fuel curRow curCol _ currentCount =>
      checkNbr_no_oob fuel offsets img curRow curCol currentCount hv⟩

/-- Witness for C9 at a concrete 1×2 grid. -/
theorem claim_C9_witness :
    (Valid ⟨1, 2, [3, 4]⟩ 1 2 ∧ ∀ x ∈ (Image.mk 1 2 [3, 4]).data_, 0 ≤ x ∧ x ≤ 255) ∧
    ((∃ n : Int, FindLargestConnected 1 2 ⟨1, 2, [3, 4]⟩ = .ok n) ∧
      ∀ (fuel : Nat) (curRow curCol currentPixel currentCount : Int),
        CheckNextPixel fuel 1 2 ⟨1, 2, [3, 4]⟩ curRow curCol currentPixel
          currentCount ≠ .error .outOfRange) :=
  ⟨⟨by decide, by decide⟩, claim_C9 1 2 ⟨1, 2, [3, 4]⟩ (by decide) (by decide)⟩

/-- C4.  On the empty grid (0 rows, 0 columns, empty buffer),
`FindLargestConnected` returns `0`. -/
theorem claim_C4 : FindLargestConnected 0 0 ⟨0, 0, []⟩ = .ok 0 := by
  rw [find_spec (show Valid ⟨0, 0, []⟩ 0 0 by decide)]
  have hbox : boxF 0 0 = ∅ := by decide
  have h1 : ∀ v : Int, largestRegion 0 0 ⟨0, 0, []⟩ v = 0 := by
    intro v
    rw [largestRegion, hbox]
    simp
  rw [refMax]
  simp [h1]

/-- C5.  Constructing an `Image` from `rows`, `cols` and an initial data
vector fails with `InvalidArgument` exactly when the data length differs
from `rows * cols`, and on success the backing buffer is that data, of
length `rows * cols`.  The hypotheses keep the dimensions and the vector
length inside the ranges representable by the C++ `int` / `size_t`
arithmetic the check performs. -/
theorem claim_C5 (rows cols : Int) (initial_data : List Int)
    (h1 : -(2 ^ 62) < rows * cols) (h2 : rows * cols < 2 ^ 62)
    (hlen : (initial_data.length : Int) < 2 ^ 63) :
    (Image.mkData rows cols initial_data = .error .invalidArgument ↔
      (initial_data.length : Int) ≠ rows * cols) ∧
    ∀ img, Image.mkData rows cols initial_data = .ok img →
      img.rows_ = rows ∧ img.cols_ = cols ∧
        (img.data_.length : Int) = rows * cols := by
  rw [Image.mkData]
  by_cases hC : (initial_data.length : Int) ≠ (rows * cols) % (2 ^ 64 : Int)
  · rw [if_pos hC]
    refine ⟨⟨fun _ => by omega, fun _ => rfl⟩, ?_⟩
    intro img himg
    exact Except.noConfusion himg
  · rw [if_neg hC]
    refine ⟨⟨fun h => Except.noConfusion h, fun h => absurd ?_ h⟩, ?_⟩
    · omega
    · intro img himg
      cases himg
      refine ⟨rfl, rfl, ?_⟩
      show (initial_data.length : Int) = rows * cols
      omega

/-- Witness for C5 at concrete arguments. -/
theorem claim_C5_witness :
    ((-(2 ^ 62) : Int) < 2 * 2 ∧ (2 * 2 : Int) < 2 ^ 62 ∧
      (([0, 1, 2] : List Int).length : Int) < 2 ^ 63) ∧
    ((Image.mkData 2 2 [0, 1, 2] = .error .invalidArgument ↔
      (([0, 1, 2] : List Int).length : Int) ≠ 2 * 2) ∧
    ∀ img, Image.mkData 2 2 [0, 1, 2] = .ok img →
      img.rows_ = 2 ∧ img.cols_ = 2 ∧ (img.data_.length : Int) = 2 * 2) :=
  ⟨⟨by decide, by decide, by decide⟩,
    claim_C5 2 2 [0, 1, 2] (by decide) (by decide) (by decide)⟩

/-- C6.  Any access through `At` with a coordinate outside
`[0, rows) × [0, cols)` fails with `OutOfRange`, both as a read and as a
write; the exception is raised by the bounds check before any reference into
the buffer is formed, so no cell is touched — in this embedding the failing
write returns no image at all and every caller proceeds with the original
image, which is unchanged. -/
theorem claim_C6 (img : Image) (row col : Int)
    (h : row < 0 ∨ row ≥ img.rows_ ∨ col < 0 ∨ col ≥ img.cols_) :
    img.at row col = .error .outOfRange ∧
    ∀ value : Int, img.atSet row col value = .error .outOfRange :=
  ⟨at_oob h, fun _ => atSet_oob h⟩

/-- Witness for C6: reads and writes at row `-1` and at column `2` of a
2×2 image fail. -/
theorem claim_C6_witness :
    ((-1 : Int) < 0 ∨ (-1 : Int) ≥ (Image.mk 2 2 [1, 2, 3, 4]).rows_ ∨
      (0 : Int) < 0 ∨ (0 : Int) ≥ (Image.mk 2 2 [1, 2, 3, 4]).cols_) ∧
    ((Image.mk 2 2 [1, 2, 3, 4]).at (-1) 0 = .error .outOfRange ∧
      ∀ value : Int, (Image.mk 2 2 [1, 2, 3, 4]).atSet (-1) 0 value =
        .error .outOfRange) :=
  ⟨by decide, claim_C6 ⟨2, 2, [1, 2, 3, 4]⟩ (-1) 0 (by decide)⟩

/-- C7 as stated is false: the two-argument constructor performs no
validation at all.  With `rows = cols = -1` the size expression
`rows * cols` is `1`, so construction succeeds outright — with the negative
dimensions stored — rather than failing with `InvalidArgument`. -/
theorem claim_C7_cex :
    Image.mkDims (-1) (-1) = .ok ⟨-1, -1, [0]⟩ ∧
    Image.mkDims (-1) (-1) ≠ .error .invalidArgument := by
  constructor
  · rfl
  · intro h
    cases h

/-- C7, amended.  The two-argument constructor never fails with
`InvalidArgument` for any row and column counts: it has no validation; a
negative `rows * cols` only makes the `size_t` size enormous, which fails
inside the vector as a length/allocation error, not as `InvalidArgument`. -/
theorem claim_C7 (rows cols : Int) :
    Image.mkDims rows cols ≠ .error .invalidArgument := by
  rw [Image.mkDims]
  by_cases h : (rows * cols) % (2 ^ 64 : Int) ≤ maxVectorSize
  · rw [if_pos h]
    intro hc
    cases hc
  · rw [if_neg h]
    intro hc
    cases hc

/-- Witness for C7 at concrete dimensions. -/
theorem claim_C7_witness :
    Image.mkDims (-3) 7 ≠ .error .invalidArgument :=
  claim_C7 (-3) 7

/-- C10.  A grid containing the reserved sentinel `-1` is processed without
error: the result is still the reference maximum `refMax` (whose per-value
maxima range over `[0,256)` only, so sentinel cells are never counted), and
a sentinel cell belongs to the region of no non-sentinel cell — it acts as a
barrier, since an equal-value path can never step onto it. -/
theorem claim_C10 (rows cols : Int) (img : Image) (hv : Valid img rows cols)
    (hvals : ∀ x ∈ img.data_, x = -1 ∨ (0 ≤ x ∧ x ≤ 255))
    (c : Int × Int) (hc : inB rows cols c) (hcv : img.atv c.1 c.2 = -1) :
    FindLargestConnected rows cols img = .ok (refMax rows cols img) ∧
    ∀ p : Int × Int, inB rows cols p → img.atv p.1 p.2 ≠ -1 →
      c ∉ region rows cols img p := by
  refine ⟨find_spec hv, ?_⟩
  intro p _ hpv hmem
  exact hpv ((region_value hmem).symm.trans hcv)

/-- Witness for C10 on the 1×3 grid `5, -1, 5`. -/
theorem claim_C10_witness :
    (Valid ⟨1, 3, [5, -1, 5]⟩ 1 3 ∧
      (∀ x ∈ (Image.mk 1 3 [5, -1, 5]).data_, x = -1 ∨ (0 ≤ x ∧ x ≤ 255)) ∧
      inB 1 3 ((0 : Int), (1 : Int)) ∧
      (Image.mk 1 3 [5, -1, 5]).atv 0 1 = -1) ∧
    (FindLargestConnected 1 3 ⟨1, 3, [5, -1, 5]⟩ =
        .ok (refMax 1 3 ⟨1, 3, [5, -1, 5]⟩) ∧
      ∀ p : Int × Int, inB 1 3 p → (Image.mk 1 3 [5, -1, 5]).atv p.1 p.2 ≠ -1 →
        ((0 : Int), (1 : Int)) ∉ region 1 3 ⟨1, 3, [5, -1, 5]⟩ p) :=
  ⟨⟨by decide, by decide, by decide, by decide⟩,
    claim_C10 1 3 ⟨1, 3, [5, -1, 5]⟩ (by decide) (by decide) (0, 1)
      (by decide) (by decide)⟩

/-- Any region size bound: the largest region of value `v` has at most as
many cells as carry the value `v`. -/
theorem largestRegion_le_card (rows cols : Int) (g : Image) (v : Int) :
    largestRegion rows cols g v ≤
      ((boxF rows cols).filter (fun p => g.atv p.1 p.2 = v)).card := by
  rw [largestRegion]
  apply Finset.sup_le
  intro p hp
  obtain ⟨hpbox, hpv⟩ := Finset.mem_filter.mp hp
  have hsub : region rows cols g p ⊆
      (((boxF rows cols).filter (fun q => g.atv q.1 q.2 = v) : Finset (Int × Int)) :
        Set (Int × Int)) := by
    intro r hr
    rw [Finset.mem_coe, Finset.mem_filter]
    have hval : g.atv r.1 r.2 = v := (region_value hr).trans hpv
    rcases region_inB hr with he | hi
    · rw [he]
      exact ⟨hpbox, hval.symm ▸ hpv⟩
    · exact ⟨mem_boxF.mpr hi, hval⟩
  calc (region rows cols g p).ncard
      ≤ (((boxF rows cols).filter (fun q => g.atv q.1 q.2 = v) : Finset (Int × Int)) :
          Set (Int × Int)).ncard :=
        Set.ncard_le_ncard hsub (Finset.finite_toSet _)
    _ = ((boxF rows cols).filter (fun q => g.atv q.1 q.2 = v)).card :=
        Set.ncard_coe_Finset _

theorem largestRegion_le_box (rows cols : Int) (g : Image) (v : Int) :
    largestRegion rows cols g v ≤ (boxF rows cols).card :=
  le_trans (largestRegion_le_card rows cols g v) (Finset.card_filter_le _ _)

/-- Walking right along a row of a constant-valued grid. -/
theorem uniform_row_path {rows cols : Int} {g : Image} {val : Int}
    (huni : ∀ p : Int × Int, inB rows cols p → g.atv p.1 p.2 = val) :
    ∀ (k : ℕ) (r c : Int), inB rows cols (r, c) →
      inB rows cols (r, c + (k : Int)) →
      Relation.ReflTransGen (eqStep rows cols g) (r, c) (r, c + (k : Int)) := by
  intro k
  induction k with
  | zero =>
    intro r c h1 _
    have e : c + ((0 : ℕ) : Int) = c := by omega
    rw [e]
  | succ k ih =>
    intro r c h1 h2
    obtain ⟨a1, a2, a3, a4⟩ := h1
    obtain ⟨b1, b2, b3, b4⟩ := h2
    have hmid : inB rows cols (r, c + (k : Int)) := ⟨by omega, by omega, by omega, by omega⟩
    have hstep : eqStep rows cols g (r, c + (k : Int)) (r, c + ((k + 1 : ℕ) : Int)) := by
      refine ⟨⟨(0, 1), by simp [offsets], Prod.ext (by omega) (by push_cast; ring)⟩,
        hmid, ⟨b1, b2, b3, b4⟩, ?_⟩
      rw [huni _ hmid, huni _ ⟨b1, b2, b3, b4⟩]
    exact (ih r c ⟨a1, a2, a3, a4⟩ hmid).tail hstep

/-- Walking down along a column of a constant-valued grid. -/
theorem uniform_col_path {rows cols : Int} {g : Image} {val : Int}
    (huni : ∀ p : Int × Int, inB rows cols p → g.atv p.1 p.2 = val) :
    ∀ (k : ℕ) (r c : Int), inB rows cols (r, c) →
      inB rows cols (r + (k : Int), c) →
      Relation.ReflTransGen (eqStep rows cols g) (r, c) (r + (k : Int), c) := by
  intro k
  induction k with
  | zero =>
    intro r c h1 _
    have e : r + ((0 : ℕ) : Int) = r := by omega
    rw [e]
  | succ k ih =>
    intro r c h1 h2
    obtain ⟨a1, a2, a3, a4⟩ := h1
    obtain ⟨b1, b2, b3, b4⟩ := h2
    have hmid : inB rows cols (r + (k : Int), c) := ⟨by omega, by omega, by omega, by omega⟩
    have hstep : eqStep rows cols g (r + (k : Int), c) (r + ((k + 1 : ℕ) : Int), c) := by
      refine ⟨⟨(1, 0), by simp [offsets], Prod.ext (by push_cast; ring) (by omega)⟩,
        hmid, ⟨b1, b2, b3, b4⟩, ?_⟩
      rw [huni _ hmid, huni _ ⟨b1, b2, b3, b4⟩]
    exact (ih r c ⟨a1, a2, a3, a4⟩ hmid).tail hstep

/-- In a constant-valued grid every in-bounds cell is in every region. -/
theorem uniform_connected {rows cols : Int} {g : Image} {val : Int}
    (huni : ∀ p : Int × Int, inB rows cols p → g.atv p.1 p.2 = val)
    {p q : Int × Int} (hp : inB rows cols p) (hq : inB rows cols q) :
    q ∈ region rows cols g p := by
  obtain ⟨a, b⟩ := p
  obtain ⟨a2, b2⟩ := q
  obtain ⟨ha1, ha2, ha3, ha4⟩ := hp
  obtain ⟨hb1, hb2, hb3, hb4⟩ := hq
  dsimp only at ha1 ha2 ha3 ha4 hb1 hb2 hb3 hb4
  have hp0 : inB rows cols (a, 0) := ⟨ha1, ha2, le_refl 0, by omega⟩
  have hq0 : inB rows cols (a2, 0) := ⟨hb1, hb2, le_refl 0, by omega⟩
  have h00 : inB rows cols (0, 0) := ⟨le_refl 0, by omega, le_refl 0, by omega⟩
  have hrowp : (a, b) ∈ region rows cols g (a, 0) := by
    have h := uniform_row_path huni b.toNat a 0 hp0
      (by rw [show (0 : Int) + (b.toNat : Int) = b from by omega]; exact ⟨ha1, ha2, ha3, ha4⟩)
    rw [show (0 : Int) + (b.toNat : Int) = b from by omega] at h
    exact h
  have hrowq : (a2, b2) ∈ region rows cols g (a2, 0) := by
    have h := uniform_row_path huni b2.toNat a2 0 hq0
      (by rw [show (0 : Int) + (b2.toNat : Int) = b2 from by omega]; exact ⟨hb1, hb2, hb3, hb4⟩)
    rw [show (0 : Int) + (b2.toNat : Int) = b2 from by omega] at h
    exact h
  have hcolp : (a, 0) ∈ region rows cols g (0, 0) := by
    have h := uniform_col_path huni a.toNat 0 0 h00
      (by rw [show (0 : Int) + (a.toNat : Int) = a from by omega]; exact hp0)
    rw [show (0 : Int) + (a.toNat : Int) = a from by omega] at h
    exact h
  have hcolq : (a2, 0) ∈ region rows cols g (0, 0) := by
    have h := uniform_col_path huni a2.toNat 0 0 h00
      (by rw [show (0 : Int) + (a2.toNat : Int) = a2 from by omega]; exact hq0)
    rw [show (0 : Int) + (a2.toNat : Int) = a2 from by omega] at h
    exact h
  have h1 : (a, 0) ∈ region rows cols g (a, b) := region_mem_symm hrowp
  have h2 : (0, 0) ∈ region rows cols g (a, 0) := region_mem_symm hcolp
  exact region_mem_trans (region_mem_trans (region_mem_trans h1 h2) hcolq) hrowq

/-- C3.  A grid of one repeated value `val ∈ [0,255]` with `R ≥ 1` rows and
`C ≥ 1` columns yields `R * C`: the whole grid is one 4-connected region. -/
theorem claim_C3 (rows cols val : Int) (img : Image) (hr : 1 ≤ rows)
    (hc : 1 ≤ cols) (hv0 : 0 ≤ val) (hv255 : val ≤ 255)
    (hv : Valid img rows cols) (hdata : ∀ x ∈ img.data_, x = val) :
    FindLargestConnected rows cols img = .ok (rows * cols) := by
  have huni : ∀ p : Int × Int, inB rows cols p → img.atv p.1 p.2 = val :=
    fun p hp => hdata _ (atv_mem_data hv hp)
  rw [find_spec hv]
  congr 1
  have hboxcard : (boxF rows cols).card = (rows * cols).toNat :=
    boxF_card (by omega) (by omega)
  have h00box : ((0 : Int), (0 : Int)) ∈ boxF rows cols :=
    mem_boxF.mpr ⟨le_refl 0, by omega, le_refl 0, by omega⟩
  have hregion00 : (region rows cols img (0, 0)).ncard = (rows * cols).toNat := by
    have he : region rows cols img (0, 0) = setOf (inB rows cols) := by
      ext r
      constructor
      · intro hrmem
        rcases region_inB hrmem with heq | hi
        · rw [heq]
          exact ⟨le_refl 0, by omega, le_refl 0, by omega⟩
        · exact hi
      · intro hi
        exact uniform_connected huni ⟨le_refl 0, by omega, le_refl 0, by omega⟩ hi
    rw [he, setOf_inB_eq, Set.ncard_coe_Finset, hboxcard]
  have hsup : (Finset.range 256).sup
      (fun v => largestRegion rows cols img (v : Int)) = (rows * cols).toNat := by
    apply le_antisymm
    · apply Finset.sup_le
      intro i _
      exact le_trans (largestRegion_le_box rows cols img (i : Int))
        (le_of_eq hboxcard)
    · have hmem : val.toNat ∈ Finset.range 256 := Finset.mem_range.mpr (by omega)
      have hcast : ((val.toNat : ℕ) : Int) = val := by omega
      calc (rows * cols).toNat
          = (region rows cols img (0, 0)).ncard := hregion00.symm
        _ ≤ largestRegion rows cols img val := by
            rw [largestRegion]
            refine Finset.le_sup (f := fun p => (region rows cols img p).ncard) ?_
            rw [Finset.mem_filter]
            exact ⟨h00box, huni _ (mem_boxF.mp h00box)⟩
        _ = largestRegion rows cols img ((val.toNat : ℕ) : Int) := by rw [hcast]
        _ ≤ (Finset.range 256).sup
              (fun v => largestRegion rows cols img (v : Int)) :=
            Finset.le_sup (f := fun v : ℕ => largestRegion rows cols img (v : Int)) hmem
  rw [refMax, hsup]
  have hnn : 0 ≤ rows * cols := mul_nonneg (by omega) (by omega)
  omega

/-- Witness for C3 on the constant 2×2 grid of value 7. -/
theorem claim_C3_witness :
    ((1 : Int) ≤ 2 ∧ (0 : Int) ≤ 7 ∧ (7 : Int) ≤ 255 ∧
      Valid ⟨2, 2, [7, 7, 7, 7]⟩ 2 2 ∧
      ∀ x ∈ (Image.mk 2 2 [7, 7, 7, 7]).data_, x = 7) ∧
    FindLargestConnected 2 2 ⟨2, 2, [7, 7, 7, 7]⟩ = .ok (2 * 2) :=
  ⟨⟨by decide, by decide, by decide, by decide, by decide⟩,
    claim_C3 2 2 7 ⟨2, 2, [7, 7, 7, 7]⟩ (by decide) (by decide) (by decide)
      (by decide) (by decide) (by decide)⟩

/-- C8.  Cells transition at most once and one-way into the visited sentinel:
(1) any successful traversal leaves every cell unchanged or `-1`, never turns
a `-1` cell into anything else, and only overwrites cells that held the
traced value (which is never `-1`); (2) the same holds for the full scan,
changed cells having held some non-sentinel value; (3) a traversal loop step
whose neighbor is already `-1` is a pure skip: the state is bit-for-bit
unchanged and nothing is counted; (4) the outer scan at an already-marked
cell likewise returns its state unchanged — so a `-1` cell is never counted
again. -/
theorem claim_C8 (rows cols cp : Int) (hcp : cp ≠ -1) :
    (∀ (fuel : Nat) (img : Image) (curRow curCol count : Int) (res : Int × Image),
      Valid img rows cols →
      CheckNextPixel fuel rows cols img curRow curCol cp count = .ok res →
      ∀ q : Int × Int, inB rows cols q →
        (img.atv q.1 q.2 = -1 → res.2.atv q.1 q.2 = -1) ∧
        (res.2.atv q.1 q.2 = img.atv q.1 q.2 ∨
          (img.atv q.1 q.2 = cp ∧ res.2.atv q.1 q.2 = -1))) ∧
    (∀ g0 : Image, Valid g0 rows cols →
      ∃ s2, scanGrid rows cols g0 = .ok s2 ∧
        ∀ q : Int × Int, inB rows cols q →
          (g0.atv q.1 q.2 = -1 → s2.2.atv q.1 q.2 = -1) ∧
          (s2.2.atv q.1 q.2 = g0.atv q.1 q.2 ∨
            (g0.atv q.1 q.2 ≠ -1 ∧ s2.2.atv q.1 q.2 = -1))) ∧
    (∀ (fuel : Nat) (img : Image) (curRow curCol count : Int) (d : Int × Int)
      (rest : List (Int × Int)), Valid img rows cols →
      inB rows cols (curRow + d.1, curCol + d.2) →
      img.atv (curRow + d.1) (curCol + d.2) = -1 →
      CheckNbr (fuel + 1) rows cols img curRow curCol cp count (d :: rest) =
        CheckNbr fuel rows cols img curRow curCol cp count rest) ∧
    (∀ (s : (Int → Int) × Image) (c : Int × Int), Valid s.2 rows cols →
      inB rows cols c → s.2.atv c.1 c.2 = -1 →
      scanCell rows cols s c.1 c.2 = .ok s) := by
  refine ⟨?_, ?_, ?_, ?_⟩
  · intro fuel img curRow curCol count res hv hres
    exact (checkNbr_oneway fuel offsets img curRow curCol count res hv hres).2
  · intro g0 hv
    obtain ⟨s2, hrun, _, hmarks, _⟩ := scanGrid_spec hv
    refine ⟨s2, hrun, ?_⟩
    intro q hq
    constructor
    · intro hq1
      have hqnot : q ∉ scanned rows cols g0 (boxF rows cols) :=
        fun hmem => scanned_ne_neg hmem hq1
      rw [(hmarks q hq).2 hqnot, hq1]
    · by_cases hqs : q ∈ scanned rows cols g0 (boxF rows cols)
      · exact Or.inr ⟨scanned_ne_neg hqs, (hmarks q hq).1 hqs⟩
      · exact Or.inl ((hmarks q hq).2 hqs)
  · intro fuel img curRow curCol count d rest hv hinb hval
    rw [CheckNbr, if_pos (show 0 ≤ curRow + d.1 ∧ curRow + d.1 < rows ∧
      0 ≤ curCol + d.2 ∧ curCol + d.2 < cols from hinb), at_ok2 hv hinb,
      hval]
    simp only [if_neg (show ¬(-1 : Int) = cp from fun h => hcp h.symm)]
  · intro s c hv hinb hval
    rw [scanCell, at_ok2 hv hinb]
    dsimp only
    rw [if_pos hval]

/-- Witness for C8 with the traced value `7` on small grids. -/
theorem claim_C8_witness : ((7 : Int) ≠ -1) ∧
    ((∀ (fuel : Nat) (img : Image) (curRow curCol count : Int) (res : Int × Image),
      Valid img 1 2 →
      CheckNextPixel fuel 1 2 img curRow curCol 7 count = .ok res →
      ∀ q : Int × Int, inB 1 2 q →
        (img.atv q.1 q.2 = -1 → res.2.atv q.1 q.2 = -1) ∧
        (res.2.atv q.1 q.2 = img.atv q.1 q.2 ∨
          (img.atv q.1 q.2 = 7 ∧ res.2.atv q.1 q.2 = -1))) ∧
    (∀ g0 : Image, Valid g0 1 2 →
      ∃ s2, scanGrid 1 2 g0 = .ok s2 ∧
        ∀ q : Int × Int, inB 1 2 q →
          (g0.atv q.1 q.2 = -1 → s2.2.atv q.1 q.2 = -1) ∧
          (s2.2.atv q.1 q.2 = g0.atv q.1 q.2 ∨
            (g0.atv q.1 q.2 ≠ -1 ∧ s2.2.atv q.1 q.2 = -1))) ∧
    (∀ (fuel : Nat) (img : Image) (curRow curCol count : Int) (d : Int × Int)
      (rest : List (Int × Int)), Valid img 1 2 →
      inB 1 2 (curRow + d.1, curCol + d.2) →
      img.atv (curRow + d.1) (curCol + d.2) = -1 →
      CheckNbr (fuel + 1) 1 2 img curRow curCol 7 count (d :: rest) =
        CheckNbr fuel 1 2 img curRow curCol 7 count rest) ∧
    (∀ (s : (Int → Int) × Image) (c : Int × Int), Valid s.2 1 2 →
      inB 1 2 c → s.2.atv c.1 c.2 = -1 →
      scanCell 1 2 s c.1 c.2 = .ok s)) :=
  ⟨by decide, claim_C8 1 2 7 (by decide)⟩

/-- Every cell of the sample image carries one of the values 1..5. -/
theorem demo_values : ∀ p ∈ boxF 5 6, demoImage.atv p.1 p.2 = 1 ∨
    demoImage.atv p.1 p.2 = 2 ∨ demoImage.atv p.1 p.2 = 3 ∨
    demoImage.atv p.1 p.2 = 4 ∨ demoImage.atv p.1 p.2 = 5 := by decide

/-- The nine cells of `demoFourRegion` are 4-connected to `(3,0)`. -/
theorem demo_four_subset :
    (demoFourRegion : Set (Int × Int)) ⊆ region 5 6 demoImage (3, 0) := by
  have m20 : ((2 : Int), (0 : Int)) ∈ region 5 6 demoImage (3, 0) :=
    Relation.ReflTransGen.single (by decide)
  have m21 : ((2 : Int), (1 : Int)) ∈ region 5 6 demoImage (3, 0) :=
    Relation.ReflTransGen.tail m20 (by decide)
  have m30 : ((3 : Int), (0 : Int)) ∈ region 5 6 demoImage (3, 0) := region_self
  have m31 : ((3 : Int), (1 : Int)) ∈ region 5 6 demoImage (3, 0) :=
    Relation.ReflTransGen.single (by decide)
  have m32 : ((3 : Int), (2 : Int)) ∈ region 5 6 demoImage (3, 0) :=
    Relation.ReflTransGen.tail m31 (by decide)
  have m40 : ((4 : Int), (0 : Int)) ∈ region 5 6 demoImage (3, 0) :=
    Relation.ReflTransGen.single (by decide)
  have m41 : ((4 : Int), (1 : Int)) ∈ region 5 6 demoImage (3, 0) :=
    Relation.ReflTransGen.tail m40 (by decide)
  have m42 : ((4 : Int), (2 : Int)) ∈ region 5 6 demoImage (3, 0) :=
    Relation.ReflTransGen.tail m41 (by decide)
  have m43 : ((4 : Int), (3 : Int)) ∈ region 5 6 demoImage (3, 0) :=
    Relation.ReflTransGen.tail m42 (by decide)
  intro r hr
  rw [Finset.mem_coe] at hr
  fin_cases hr
  · exact m20
  · exact m21
  · exact m30
  · exact m31
  · exact m32
  · exact m40
  · exact m41
  · exact m42
  · exact m43

/-- The reference answer on the sample image is 9 (the `4` region). -/
theorem demo_refMax : refMax 5 6 demoImage = 9 := by
  have hsup : (Finset.range 256).sup
      (fun v => largestRegion 5 6 demoImage (v : Int)) = 9 := by
    apply le_antisymm
    · apply Finset.sup_le
      intro i _
      by_cases h : (i : Int) = 1 ∨ (i : Int) = 2 ∨ (i : Int) = 3 ∨
        (i : Int) = 4 ∨ (i : Int) = 5
      · rcases h with h | h | h | h | h <;> rw [h] <;>
          exact le_trans (largestRegion_le_card 5 6 demoImage _) (by decide)
      · push_neg at h
        obtain ⟨n1, n2, n3, n4, n5⟩ := h
        have hempty : (boxF 5 6).filter
            (fun p => demoImage.atv p.1 p.2 = (i : Int)) = ∅ := by
          rw [Finset.filter_eq_empty_iff]
          intro p hp
          rcases demo_values p hp with hv | hv | hv | hv | hv <;> rw [hv]
          · exact fun he => n1 he.symm
          · exact fun he => n2 he.symm
          · exact fun he => n3 he.symm
          · exact fun he => n4 he.symm
          · exact fun he => n5 he.symm
        rw [largestRegion, hempty, Finset.sup_empty]
        exact bot_le
    · have h9 : 9 ≤ (region 5 6 demoImage (3, 0)).ncard := by
        have hcard : ((demoFourRegion : Finset (Int × Int)) :
            Set (Int × Int)).ncard = 9 := by
          rw [Set.ncard_coe_Finset]
          decide
        rw [← hcard]
        exact Set.ncard_le_ncard demo_four_subset (region_finite (by decide))
      have hlr : 9 ≤ largestRegion 5 6 demoImage 4 := by
        rw [largestRegion]
        refine le_trans h9 (Finset.le_sup
          (f := fun p => (region 5 6 demoImage p).ncard) ?_)
        rw [Finset.mem_filter]
        exact ⟨by decide, by decide⟩
      have hcast : (((4 : ℕ) : Int)) = (4 : Int) := by norm_num
      refine le_trans hlr ?_
      rw [← hcast]
      exact Finset.le_sup (f := fun v : ℕ => largestRegion 5 6 demoImage (v : Int))
        (Finset.mem_range.mpr (by norm_num))
  rw [refMax, hsup]
  rfl

/-- The embedded program on the sample image of `main` returns 9. -/
theorem find_demo : FindLargestConnected 5 6 demoImage = .ok 9 := by
  rw [find_spec (show Valid demoImage 5 6 by decide), demo_refMax]

/-- C2, counterexample to the claim as stated: on the 5×6 sample grid the
program does not return 6. -/
theorem claim_C2_cex : FindLargestConnected 5 6 demoImage ≠ .ok 6 := by
  intro h
  rw [find_demo] at h
  exact absurd (Except.ok.inj h) (by decide)

/-- C2, amended.  On the 5×6 sample grid of `main` (constructed through the
three-argument constructor exactly as `main` does), `FindLargestConnected`
returns 9: the largest equal-valued 4-connected block is the `4` region
spanning rows 2-4, which has 9 cells, not 6 (6 is the size of the `1`
region). -/
theorem claim_C2 : Image.mkData 5 6 demoData = .ok demoImage ∧
    FindLargestConnected 5 6 demoImage = .ok 9 :=
  ⟨rfl, find_demo⟩
